import Mathlib

/-!
Verification development for the goiler real-time hub and in-process
pub/sub bus.  The Go source is shallowly embedded: Go maps become
association lists, heap pointers become `Nat` references into an explicit
store, channels become lists with a capacity and a close counter, and the
non-blocking `select`/`default` try-send becomes a total function that
appends only when the queue is below its bound.  Stateful methods become
pure functions on an explicit state record.  Concurrency is modelled at
quiescent points: each operation runs to completion before the next.
-/

namespace Goiler

/-! ## Association-list maps (Go `map[string]V`)

Go map reads, writes and deletes on string keys.  `alSet` installs a
binding by removing every stale binding for the key and consing the new
one, which matches Go map assignment (afterwards exactly one binding). -/

/-- Lookup of the first binding of `key`, i.e. Go `m[key]` with `ok`. -/
def alGet {β : Type} : List (String × β) → String → Option β
  | [], _ => none
  | (k, v) :: rest, key => if k = key then some v else alGet rest key

/-- Deletion of every binding of `key`, i.e. Go `delete(m, key)`. -/
def alDel {β : Type} : List (String × β) → String → List (String × β)
  | [], _ => []
  | (k, v) :: rest, key =>
      if k = key then alDel rest key else (k, v) :: alDel rest key

/-- Map assignment `m[key] = v`. -/
def alSet {β : Type} (l : List (String × β)) (key : String) (v : β) :
    List (String × β) :=
  (key, v) :: alDel l key

/-- Number of bindings of `key` (1 for a well-formed map holding it). -/
def countKey {β : Type} : List (String × β) → String → Nat
  | [], _ => 0
  | (k, _) :: rest, key => (if k = key then 1 else 0) + countKey rest key

/-- Set insertion, i.e. Go `m[a] = true` on a `map[T]bool` used as a set. -/
def setInsert {α : Type} [DecidableEq α] (l : List α) (a : α) : List α :=
  if a ∈ l then l else a :: l

/-- Set removal, i.e. Go `delete(m, a)` on a `map[T]bool` used as a set. -/
def setRemove {α : Type} [DecidableEq α] : List α → α → List α
  | [], _ => []
  | x :: rest, a => if x = a then setRemove rest a else x :: setRemove rest a

/-! ## Pub/Sub bus (`internal/channel/pubsub.go`)

`Event`, `Subscriber` and `PubSub`.  A `*Subscriber` pointer is a `Nat`
reference into `PubSubState.store`.  The subscriber's Go channel is the
`queue` list bounded by `cap`; `closes` counts how many times
`close(sub.Channel)` has executed and `cancelled` records that the
subscriber's context (its own `cancel` or the caller-supplied parent
scope) is done. -/

/-- Event carried by the bus; `timestamp` is the `time.Now()` value the
publisher passes in, payloads are opaque strings. -/
structure Event where
  topic : String
  payload : String
  timestamp : Nat
deriving DecidableEq, Repr

/-- One subscriber object (the target of a Go `*Subscriber`). -/
structure SubObj where
  id : String
  topics : List String
  queue : List Event
  cap : Nat
  closes : Nat
  cancelled : Bool
deriving DecidableEq, Repr

/-- State of a `PubSub`: `registry` is `subscribers : map[topic]map[id]*Subscriber`,
`store` resolves subscriber references, `nextRef` is the allocator. -/
structure PubSubState where
  registry : List (String × List (String × Nat))
  bufferSize : Nat
  store : Nat → Option SubObj
  nextRef : Nat

/-- NewPubSub: a non-positive buffer size is coerced to 100. -/
def NewPubSub (bufferSize : Int) : PubSubState :=
  { registry := []
    bufferSize := if bufferSize ≤ 0 then 100 else bufferSize.toNat
    store := fun _ => none
    nextRef := 0 }

/-- Registry part of Subscribe: for each listed topic, create the inner
map if absent and install `id ↦ ref`. -/
def subscribeReg (id : String) (ref : Nat) (topics : List String)
    (reg : List (String × List (String × Nat))) :
    List (String × List (String × Nat)) :=
  topics.foldl (fun reg t => alSet reg t (alSet ((alGet reg t).getD []) id ref)) reg

/-- Subscribe: allocates a fresh subscriber with an empty queue bounded by
the bus buffer size and registers it under every listed topic; returns the
new state and the subscriber reference. -/
def Subscribe (st : PubSubState) (id : String) (topics : List String) :
    PubSubState × Nat :=
  let r := st.nextRef
  let obj : SubObj :=
    { id := id, topics := topics, queue := [], cap := st.bufferSize
      closes := 0, cancelled := false }
  ({ st with
      registry := subscribeReg id r topics st.registry
      store := fun x => if x = r then some obj else st.store x
      nextRef := r + 1 }, r)

/-- Unsubscribe body for one topic: if the topic is registered, delete the
subscriber id from it, and delete the topic itself when it becomes empty. -/
def unsubTopic (reg : List (String × List (String × Nat))) (id : String)
    (t : String) : List (String × List (String × Nat)) :=
  match alGet reg t with
  | none => reg
  | some subs =>
      let subs' := alDel subs id
      if subs' = [] then alDel reg t else alSet reg t subs'

/-- Unsubscribe: removes the subscriber from every topic it listed, then
cancels its context and closes its queue (`closes` is incremented each
time `close` executes — Go would panic on the second close). -/
def Unsubscribe (st : PubSubState) (r : Nat) : PubSubState :=
  match st.store r with
  | none => st
  | some sub =>
      { st with
          registry := sub.topics.foldl (fun reg t => unsubTopic reg sub.id t) st.registry
          store := fun x =>
            if x = r then
              some { sub with cancelled := true, closes := sub.closes + 1 }
            else st.store x }

/-- Delivery loop of Publish: for each registry entry of the topic, skip a
cancelled subscriber, try-send to an uncancelled one (append only when the
queue is below its bound, else drop), and count the successful sends. -/
def busDeliver (store : Nat → Option SubObj) (e : Event) :
    List (String × Nat) → (Nat → Option SubObj) × Nat
  | [] => (store, 0)
  | (_, r) :: rest =>
      match store r with
      | none => busDeliver store e rest
      | some sub =>
          if sub.cancelled then busDeliver store e rest
          else if sub.queue.length < sub.cap then
            let store' := fun x =>
              if x = r then some { sub with queue := sub.queue ++ [e] }
              else store x
            let res := busDeliver store' e rest
            (res.1, res.2 + 1)
          else busDeliver store e rest

/-- Publish: builds the event, snapshots the topic's subscriber map and
delivers best-effort, returning the number of subscribers that received
the event. -/
def Publish (st : PubSubState) (topic payload : String) (now : Nat) :
    PubSubState × Nat :=
  let e : Event := { topic := topic, payload := payload, timestamp := now }
  let subs := (alGet st.registry topic).getD []
  let res := busDeliver st.store e subs
  ({ st with store := res.1 }, res.2)

/-- PublishAsync: fire-and-forget variant with the same delivery effect. -/
def PublishAsync (st : PubSubState) (topic payload : String) (now : Nat) :
    PubSubState :=
  (Publish st topic payload now).1

/-- GetSubscriberCount: size of the topic's subscriber map. -/
def GetSubscriberCount (st : PubSubState) (topic : String) : Nat :=
  ((alGet st.registry topic).getD []).length

/-- GetTopics: all active topic keys. -/
def GetTopics (st : PubSubState) : List String :=
  st.registry.map Prod.fst

/-- Cancellation of the caller-supplied parent scope of a subscriber (the
`ctx` handed to Subscribe): marks the subscriber's context done without
touching the registry — nothing evicts it until Publish or Unsubscribe
notices. -/
def CancelScope (st : PubSubState) (r : Nat) : PubSubState :=
  { st with
      store := fun x =>
        if x = r then (st.store r).map (fun sub => { sub with cancelled := true })
        else st.store x }

/-- Reachable bus states: a fresh bus followed by any sequence of the five
mutating entry points (PublishAsync has the same state effect as Publish). -/
inductive BusReach : PubSubState → Prop where
  | init : ∀ b, BusReach (NewPubSub b)
  | subscribe : ∀ {st} (id : String) (topics : List String), BusReach st →
      BusReach (Subscribe st id topics).1
  | unsubscribe : ∀ {st} (r : Nat), BusReach st → BusReach (Unsubscribe st r)
  | publish : ∀ {st} (topic payload : String) (now : Nat), BusReach st →
      BusReach (Publish st topic payload now).1
  | cancelScope : ∀ {st} (r : Nat), BusReach st → BusReach (CancelScope st r)

/-! ## WebSocket hub (`internal/websocket/hub.go`, `client.go`)

A `*Client` pointer is a `Nat` reference into `HubState.store`.  The
client's buffered `send` channel (capacity 256) is the `send` list bounded
by `sendCap`; `closes` counts executions of `close(client.send)`; `rooms`
is the client's own room set.  The hub's control loop serializes all
mutations, so each channel command is modelled as a direct call of the
corresponding private method. -/

/-- Wire message: `{type, room, payload}`.  `payload` stays opaque. -/
structure Message where
  type_ : String
  room : String
  payload : String
deriving DecidableEq, Repr

/-- Encode models `json.Marshal` abstractly as a total injective encoding
of the three fields (payloads are opaque in the model, so marshal failure
is not representable; the failing branch of `broadcastMessage` is kept). -/
def Message.Encode (m : Message) : Option Message :=
  some m

/-- One client object (the target of a Go `*Client`). -/
structure ClientObj where
  id : String
  userId : String
  send : List Message
  sendCap : Nat
  closes : Nat
  rooms : List String
deriving DecidableEq, Repr

/-- ClientRef stands for a `*Client` pointer. -/
abbrev ClientRef := Nat

/-- State of a Hub: the live-client set, the room registry
(`rooms : map[string]map[*Client]bool`), the client store and the
allocator for fresh client references. -/
structure HubState where
  clients : List ClientRef
  rooms : List (String × List ClientRef)
  store : ClientRef → Option ClientObj
  nextRef : Nat

/-- NewHub: empty registries. -/
def NewHub : HubState :=
  { clients := [], rooms := [], store := fun _ => none, nextRef := 0 }

/-- Capacity of a client's buffered send channel in the source. -/
def sendQueueCap : Nat := 256

/-- NewClient: allocates a fresh client with a random id (modelled as the
reference rendered as a string), an empty bounded send queue and no rooms. -/
def NewClient (st : HubState) (userId : String) : HubState × ClientRef :=
  let r := st.nextRef
  ({ st with
      store := fun x =>
        if x = r then
          some { id := toString r, userId := userId, send := []
                 sendCap := sendQueueCap, closes := 0, rooms := [] }
        else st.store x
      nextRef := r + 1 }, r)

/-- Store update at one client reference. -/
def updObj (store : ClientRef → Option ClientObj) (c : ClientRef)
    (f : ClientObj → ClientObj) : ClientRef → Option ClientObj :=
  fun x => if x = c then (store c).map f else store x

/-- registerClient: adds the client to the live set. -/
def registerClient (st : HubState) (c : ClientRef) : HubState :=
  { st with clients := setInsert st.clients c }

/-- Room sweep of unregisterClient: every room the client occupies loses
it, and a room emptied by that removal is deleted. -/
def unregRooms (rs : List (String × List ClientRef)) (c : ClientRef) :
    List (String × List ClientRef) :=
  rs.filterMap fun p =>
    if c ∈ p.2 then
      let ms := setRemove p.2 c
      if ms = [] then none else some (p.1, ms)
    else some p

/-- unregisterClient: if the client is live, remove it from the live set,
close its send queue and sweep it out of every room; otherwise no-op. -/
def unregisterClient (st : HubState) (c : ClientRef) : HubState :=
  if c ∈ st.clients then
    { st with
        clients := setRemove st.clients c
        rooms := unregRooms st.rooms c
        store := updObj st.store c (fun o => { o with closes := o.closes + 1 }) }
  else st

/-- addClientToRoom: create the room on first join, add the client to its
member set and record the room in the client's own room set. -/
def addClientToRoom (st : HubState) (c : ClientRef) (room : String) : HubState :=
  let ms := (alGet st.rooms room).getD []
  { st with
      rooms := alSet st.rooms room (setInsert ms c)
      store := updObj st.store c (fun o => { o with rooms := setInsert o.rooms room }) }

/-- removeClientFromRoom: if the room exists, remove the client from its
member set and from the client's own room set, deleting the room when the
member set becomes empty; a missing room only logs. -/
def removeClientFromRoom (st : HubState) (c : ClientRef) (room : String) :
    HubState :=
  match alGet st.rooms room with
  | none => st
  | some ms =>
      let ms' := setRemove ms c
      { st with
          rooms := if ms' = [] then alDel st.rooms room else alSet st.rooms room ms'
          store := updObj st.store c (fun o => { o with rooms := setRemove o.rooms room }) }

/-- Try-send of encoded data to one client: the non-blocking select with a
default branch appends only while the queue is below its bound, else the
message is dropped for that client. -/
def trySend (o : ClientObj) (d : Message) : ClientObj :=
  if o.send.length < o.sendCap then { o with send := o.send ++ [d] } else o

/-- Delivery loop of broadcastMessage over a member list. -/
def hubDeliver (store : ClientRef → Option ClientObj) (d : Message) :
    List ClientRef → ClientRef → Option ClientObj
  | [] => store
  | c :: rest => hubDeliver (updObj store c (fun o => trySend o d)) d rest

/-- broadcastMessage: encode once; with a nonempty room field deliver to
that room's members (a missing room delivers to nobody), otherwise deliver
to every live client. -/
def broadcastMessage (st : HubState) (m : Message) : HubState :=
  match m.Encode with
  | none => st
  | some d =>
      if m.room ≠ "" then
        match alGet st.rooms m.room with
        | some ms => { st with store := hubDeliver st.store d ms }
        | none => st
      else
        { st with store := hubDeliver st.store d st.clients }

/-- Room-field assignment performed by BroadcastToRoom on the caller's
message (`message.Room = room`) before it is handed to the control loop. -/
def broadcastToRoomMsg (room : String) (m : Message) : Message :=
  { m with room := room }

/-- BroadcastToRoom: overwrites the message's room field with the target
room and routes it through the control loop's broadcast. -/
def BroadcastToRoom (st : HubState) (room : String) (m : Message) : HubState :=
  broadcastMessage st (broadcastToRoomMsg room m)

/-- BroadcastToAll: routes the message unchanged through the broadcast. -/
def BroadcastToAll (st : HubState) (m : Message) : HubState :=
  broadcastMessage st m

/-- GetConnectedClients: size of the live-client set. -/
def GetConnectedClients (st : HubState) : Nat :=
  st.clients.length

/-- GetRoomClients: size of the room's member set, 0 for a missing room. -/
def GetRoomClients (st : HubState) (room : String) : Nat :=
  match alGet st.rooms room with
  | some ms => ms.length
  | none => 0

/-- Reachable hub states: a fresh hub followed by any sequence of control
loop commands.  A registration always concerns a freshly constructed
client (`NewClient` then `hub.register`, as in `ServeWS`); joins, leaves
and unregistrations may name any allocated client. -/
inductive HubReach : HubState → Prop where
  | init : HubReach NewHub
  | register : ∀ {st} (userId : String), HubReach st →
      HubReach (registerClient (NewClient st userId).1 (NewClient st userId).2)
  | unregister : ∀ {st} (c : ClientRef), HubReach st →
      HubReach (unregisterClient st c)
  | join : ∀ {st} (c : ClientRef) (room : String), HubReach st →
      (st.store c).isSome → HubReach (addClientToRoom st c room)
  | leave : ∀ {st} (c : ClientRef) (room : String), HubReach st →
      (st.store c).isSome → HubReach (removeClientFromRoom st c room)
  | bcast : ∀ {st} (m : Message), HubReach st →
      HubReach (broadcastMessage st m)

/-! ## Fanout and Pipeline (`internal/channel/pubsub.go`)

The background task of each instance is embedded as a function that runs
the loop to quiescence: with the cancellation scope done the task takes
the ctx branch; otherwise it drains the buffered input in order and then
either observes the closed input and returns, or blocks awaiting input.
Blocking sends of the Pipeline (`p.output <- event`, `p.errors <- err`)
are modelled as appends, since only closing behaviour is at stake here. -/

/-- One fanout output channel with its own bound and drop-on-full policy. -/
structure OutChan where
  buf : List Event
  cap : Nat
  closed : Bool
deriving DecidableEq, Repr

/-- Non-blocking send to one fanout output. -/
def fanTrySend (e : Event) (o : OutChan) : OutChan :=
  if o.buf.length < o.cap then { o with buf := o.buf ++ [e] } else o

/-- Closing of a fanout output. -/
def closeOut (o : OutChan) : OutChan :=
  { o with closed := true }

/-- State of a Fanout instance as seen by its `run` task. -/
structure FanoutState where
  inputBuf : List Event
  inputClosed : Bool
  outputs : List OutChan
  ctxDone : Bool
deriving DecidableEq, Repr

/-- Input-drain loop of `Fanout.run`: each received event is try-sent to
every output. -/
def fanDrain (outs : List OutChan) : List Event → List OutChan
  | [] => outs
  | e :: rest => fanDrain (outs.map (fanTrySend e)) rest

/-- Fanout.run to quiescence: with the scope done it closes every output
and returns; otherwise it consumes the buffered input and then — whether
the input is closed (bare `return`) or still open (blocked receive) — the
outputs keep their open/closed state. -/
def fanRun (st : FanoutState) : FanoutState :=
  if st.ctxDone then { st with outputs := st.outputs.map closeOut }
  else { st with inputBuf := [], outputs := fanDrain st.outputs st.inputBuf }

/-- Simple channel for the pipeline's success output and error output. -/
structure Chan (α : Type) where
  buf : List α
  closed : Bool
deriving DecidableEq, Repr

/-- Stage chaining of the pipeline: thread the event through the stages in
order and stop at the first failing stage. -/
def runStages : List (Event → Except String Event) → Event → Except String Event
  | [], e => Except.ok e
  | s :: rest, e =>
      match s e with
      | Except.ok e' => runStages rest e'
      | Except.error err => Except.error err

/-- Input-drain loop of `Pipeline.Start`: a fully transformed event goes
to the success output, the first stage error goes to the error output and
the remaining stages are skipped. -/
def pipeDrain (stages : List (Event → Except String Event))
    (out : List Event) (errs : List String) : List Event → List Event × List String
  | [] => (out, errs)
  | e :: rest =>
      match runStages stages e with
      | Except.ok e' => pipeDrain stages (out ++ [e']) errs rest
      | Except.error err => pipeDrain stages out (errs ++ [err]) rest

/-- State of a Pipeline instance as seen by its `Start` task. -/
structure PipelineState where
  stages : List (Event → Except String Event)
  inputBuf : List Event
  inputClosed : Bool
  output : Chan Event
  errors : Chan String
  ctxDone : Bool

/-- Pipeline.Start task to quiescence: with the scope done it closes both
outputs; otherwise it consumes the buffered input and then closes both
outputs if the input is closed, or blocks awaiting input leaving them as
they are. -/
def pipeRun (st : PipelineState) : PipelineState :=
  if st.ctxDone then
    { st with
        output := { st.output with closed := true }
        errors := { st.errors with closed := true } }
  else
    let res := pipeDrain st.stages st.output.buf st.errors.buf st.inputBuf
    if st.inputClosed then
      { st with
          inputBuf := []
          output := { buf := res.1, closed := true }
          errors := { buf := res.2, closed := true } }
    else
      { st with
          inputBuf := []
          output := { st.output with buf := res.1 }
          errors := { st.errors with buf := res.2 } }

/-! ## Lemmas about the map and set primitives -/

theorem alGet_alDel_self {β : Type} (l : List (String × β)) (k : String) :
    alGet (alDel l k) k = none := by
  induction l with
  | nil => rfl
  | cons p rest ih =>
      obtain ⟨k', v⟩ := p
      by_cases h : k' = k
      · simp [alDel, h, ih]
      · simp [alDel, alGet, h, ih]

theorem alGet_alDel_ne {β : Type} (l : List (String × β)) {k k' : String}
    (h : k' ≠ k) : alGet (alDel l k) k' = alGet l k' := by
  induction l with
  | nil => rfl
  | cons p rest ih =>
      obtain ⟨k₀, v⟩ := p
      by_cases h₀ : k₀ = k
      · subst h₀
        have hne : ¬ k₀ = k' := fun he => h he.symm
        simp [alDel, alGet, hne, ih]
      · by_cases h₁ : k₀ = k'
        · simp [alDel, alGet, h₀, h₁, h]
        · simp [alDel, alGet, h₀, h₁, ih]

theorem alGet_alSet_self {β : Type} (l : List (String × β)) (k : String) (v : β) :
    alGet (alSet l k v) k = some v := by
  simp [alSet, alGet]

theorem alGet_alSet_ne {β : Type} (l : List (String × β)) {k k' : String} (v : β)
    (h : k' ≠ k) : alGet (alSet l k v) k' = alGet l k' := by
  have hne : ¬ k = k' := fun he => h he.symm
  simp only [alSet, alGet, if_neg hne]
  exact alGet_alDel_ne l h

theorem mem_alDel {β : Type} {l : List (String × β)} {k : String}
    {p : String × β} (h : p ∈ alDel l k) : p ∈ l ∧ p.1 ≠ k := by
  induction l with
  | nil => cases h
  | cons q rest ih =>
      obtain ⟨k₀, v₀⟩ := q
      by_cases h₀ : k₀ = k
      · simp only [alDel, if_pos h₀] at h
        exact ⟨List.mem_cons_of_mem _ (ih h).1, (ih h).2⟩
      · simp only [alDel, if_neg h₀] at h
        rcases List.mem_cons.mp h with h₁ | h₁
        · subst h₁; exact ⟨List.mem_cons_self _ _, h₀⟩
        · exact ⟨List.mem_cons_of_mem _ (ih h₁).1, (ih h₁).2⟩

theorem mem_alDel_of_mem {β : Type} {l : List (String × β)} {k : String}
    {p : String × β} (h : p ∈ l) (hne : p.1 ≠ k) : p ∈ alDel l k := by
  induction l with
  | nil => cases h
  | cons q rest ih =>
      obtain ⟨k₀, v₀⟩ := q
      rcases List.mem_cons.mp h with h₁ | h₁
      · subst h₁
        simp only [alDel, if_neg hne]
        exact List.mem_cons_self _ _
      · by_cases h₀ : k₀ = k
        · simpa [alDel, h₀] using ih h₁
        · simp only [alDel, if_neg h₀]
          exact List.mem_cons_of_mem _ (ih h₁)

theorem mem_of_alGet {β : Type} {l : List (String × β)} {k : String} {v : β}
    (h : alGet l k = some v) : (k, v) ∈ l := by
  induction l with
  | nil => cases h
  | cons p rest ih =>
      obtain ⟨k₀, v₀⟩ := p
      by_cases h₀ : k₀ = k
      · simp only [alGet, if_pos h₀] at h
        cases h
        subst h₀
        exact List.mem_cons_self _ _
      · simp only [alGet, if_neg h₀] at h
        exact List.mem_cons_of_mem _ (ih h)

theorem alGet_isSome_of_mem {β : Type} {l : List (String × β)} {k : String}
    {v : β} (h : (k, v) ∈ l) : (alGet l k).isSome := by
  induction l with
  | nil => cases h
  | cons p rest ih =>
      obtain ⟨k₀, v₀⟩ := p
      rcases List.mem_cons.mp h with h₁ | h₁
      · cases h₁; simp [alGet]
      · by_cases h₀ : k₀ = k
        · simp [alGet, h₀]
        · simpa [alGet, h₀] using ih h₁

theorem alGet_eq_none_iff {β : Type} {l : List (String × β)} {k : String} :
    alGet l k = none ↔ ∀ v, (k, v) ∉ l := by
  constructor
  · intro h v hmem
    have := alGet_isSome_of_mem hmem
    rw [h] at this
    cases this
  · intro h
    cases hg : alGet l k with
    | none => rfl
    | some v => exact absurd (mem_of_alGet hg) (h v)

theorem alDel_idem {β : Type} (l : List (String × β)) (k : String) :
    alDel (alDel l k) k = alDel l k := by
  induction l with
  | nil => rfl
  | cons p rest ih =>
      obtain ⟨k₀, v₀⟩ := p
      by_cases h₀ : k₀ = k
      · simp [alDel, h₀, ih]
      · simp [alDel, h₀, ih]

theorem alSet_idem {β : Type} (l : List (String × β)) (k : String) (v : β) :
    alSet (alSet l k v) k v = alSet l k v := by
  simp [alSet, alDel, alDel_idem]

theorem keys_alDel_sublist {β : Type} (l : List (String × β)) (k : String) :
    ((alDel l k).map Prod.fst).Sublist (l.map Prod.fst) := by
  induction l with
  | nil => simp [alDel]
  | cons p rest ih =>
      obtain ⟨k₀, v₀⟩ := p
      by_cases h₀ : k₀ = k
      · simp only [alDel, if_pos h₀, List.map_cons]
        exact ih.cons k₀
      · simp only [alDel, if_neg h₀, List.map_cons]
        exact ih.cons₂ k₀

theorem keysNodup_alDel {β : Type} {l : List (String × β)} (k : String)
    (h : (l.map Prod.fst).Nodup) : ((alDel l k).map Prod.fst).Nodup :=
  h.sublist (keys_alDel_sublist l k)

theorem not_mem_keys_alDel {β : Type} (l : List (String × β)) (k : String) :
    k ∉ (alDel l k).map Prod.fst := by
  intro hmem
  rcases List.mem_map.mp hmem with ⟨p, hp, hfst⟩
  exact (mem_alDel hp).2 hfst

theorem keysNodup_alSet {β : Type} {l : List (String × β)} (k : String) (v : β)
    (h : (l.map Prod.fst).Nodup) : ((alSet l k v).map Prod.fst).Nodup := by
  simp only [alSet, List.map_cons]
  exact List.nodup_cons.mpr ⟨not_mem_keys_alDel l k, keysNodup_alDel k h⟩

theorem alGet_eq_of_mem_nodup {β : Type} {l : List (String × β)}
    (h : (l.map Prod.fst).Nodup) {p : String × β} (hp : p ∈ l) :
    alGet l p.1 = some p.2 := by
  induction l with
  | nil => cases hp
  | cons q rest ih =>
      obtain ⟨k₀, v₀⟩ := q
      simp only [List.map_cons, List.nodup_cons] at h
      rcases List.mem_cons.mp hp with h₁ | h₁
      · subst h₁; simp [alGet]
      · have hk : k₀ ≠ p.1 := by
          rintro rfl
          exact h.1 (List.mem_map.mpr ⟨p, h₁, rfl⟩)
        simp only [alGet, if_neg hk]
        exact ih h.2 h₁

theorem mem_setInsert {α : Type} [DecidableEq α] {l : List α} {a x : α} :
    x ∈ setInsert l a ↔ x = a ∨ x ∈ l := by
  by_cases h : a ∈ l
  · simp only [setInsert, if_pos h]
    constructor
    · exact Or.inr
    · rintro (rfl | hx)
      · exact h
      · exact hx
  · simp [setInsert, if_neg h, List.mem_cons]

theorem nodup_setInsert {α : Type} [DecidableEq α] {l : List α} (a : α)
    (h : l.Nodup) : (setInsert l a).Nodup := by
  by_cases ha : a ∈ l
  · simpa [setInsert, ha] using h
  · simp only [setInsert, if_neg ha]
    exact List.nodup_cons.mpr ⟨ha, h⟩

theorem mem_setRemove {α : Type} [DecidableEq α] {l : List α} {a x : α} :
    x ∈ setRemove l a ↔ x ∈ l ∧ x ≠ a := by
  induction l with
  | nil => simp [setRemove]
  | cons y rest ih =>
      by_cases h : y = a
      · subst h
        rw [show setRemove (y :: rest) y = setRemove rest y from by simp [setRemove]]
        rw [ih]
        simp only [List.mem_cons]
        constructor
        · rintro ⟨hx, hne⟩
          exact ⟨Or.inr hx, hne⟩
        · rintro ⟨rfl | hx, hne⟩
          · exact absurd rfl hne
          · exact ⟨hx, hne⟩
      · rw [show setRemove (y :: rest) a = y :: setRemove rest a from by simp [setRemove, h]]
        simp only [List.mem_cons, ih]
        constructor
        · rintro (rfl | ⟨hx, hne⟩)
          · exact ⟨Or.inl rfl, h⟩
          · exact ⟨Or.inr hx, hne⟩
        · rintro ⟨rfl | hx, hne⟩
          · exact Or.inl rfl
          · exact Or.inr ⟨hx, hne⟩

theorem setRemove_eq_self {α : Type} [DecidableEq α] {l : List α} {a : α}
    (h : a ∉ l) : setRemove l a = l := by
  induction l with
  | nil => rfl
  | cons y rest ih =>
      have hy : y ≠ a := fun hya => h (hya ▸ List.mem_cons_self _ _)
      have : a ∉ rest := fun ha => h (List.mem_cons_of_mem _ ha)
      simp [setRemove, hy, ih this]

theorem setRemove_sublist {α : Type} [DecidableEq α] (l : List α) (a : α) :
    (setRemove l a).Sublist l := by
  induction l with
  | nil => simp [setRemove]
  | cons y rest ih =>
      by_cases h : y = a
      · simp only [setRemove, if_pos h]
        exact ih.cons y
      · simp only [setRemove, if_neg h]
        exact ih.cons₂ y

theorem nodup_setRemove {α : Type} [DecidableEq α] {l : List α} (a : α)
    (h : l.Nodup) : (setRemove l a).Nodup :=
  h.sublist (setRemove_sublist l a)

theorem setRemove_setInsert {α : Type} [DecidableEq α] (l : List α) (a : α) :
    setRemove (setInsert l a) a = setRemove l a := by
  by_cases h : a ∈ l
  · simp [setInsert, h]
  · simp [setInsert, h, setRemove]

/-! ## Characterization of the Subscribe registry fold -/

theorem alDel_eq_self {β : Type} {l : List (String × β)} {k : String}
    (h : ∀ v, (k, v) ∉ l) : alDel l k = l := by
  induction l with
  | nil => rfl
  | cons p rest ih =>
      obtain ⟨k₀, v₀⟩ := p
      have hk : k₀ ≠ k := by
        rintro rfl
        exact h v₀ (List.mem_cons_self _ _)
      have : ∀ v, (k, v) ∉ rest := fun v hv => h v (List.mem_cons_of_mem _ hv)
      simp [alDel, hk, ih this]

theorem length_alDel_of_get_nodup {β : Type} {l : List (String × β)}
    {k : String} {v : β} (hnd : (l.map Prod.fst).Nodup)
    (hget : alGet l k = some v) : (alDel l k).length + 1 = l.length := by
  induction l with
  | nil => cases hget
  | cons p rest ih =>
      obtain ⟨k₀, v₀⟩ := p
      simp only [List.map_cons, List.nodup_cons] at hnd
      by_cases h₀ : k₀ = k
      · subst h₀
        have hnone : ∀ w, (k₀, w) ∉ rest := by
          intro w hw
          exact hnd.1 (List.mem_map.mpr ⟨(k₀, w), hw, rfl⟩)
        simp [alDel, alDel_eq_self hnone]
      · simp only [alGet, if_neg h₀] at hget
        simp only [alDel, if_neg h₀, List.length_cons]
        rw [← ih hnd.2 hget]

theorem subscribeReg_get_notmem (id : String) (ref : Nat) {topics : List String}
    {t : String} (h : t ∉ topics)
    (reg : List (String × List (String × Nat))) :
    alGet (subscribeReg id ref topics reg) t = alGet reg t := by
  induction topics generalizing reg with
  | nil => rfl
  | cons u rest ih =>
      have hu : t ≠ u := fun he => h (he ▸ List.mem_cons_self _ _)
      have hrest : t ∉ rest := fun hr => h (List.mem_cons_of_mem _ hr)
      simp only [subscribeReg, List.foldl_cons]
      rw [show (List.foldl (fun reg t => alSet reg t (alSet ((alGet reg t).getD []) id ref)) (alSet reg u (alSet ((alGet reg u).getD []) id ref)) rest) = subscribeReg id ref rest (alSet reg u (alSet ((alGet reg u).getD []) id ref)) from rfl]
      rw [ih hrest]
      exact alGet_alSet_ne _ _ hu

theorem subscribeReg_get_mem (id : String) (ref : Nat) {topics : List String}
    {t : String} (h : t ∈ topics)
    (reg : List (String × List (String × Nat))) :
    alGet (subscribeReg id ref topics reg) t =
      some (alSet ((alGet reg t).getD []) id ref) := by
  induction topics generalizing reg with
  | nil => cases h
  | cons u rest ih =>
      simp only [subscribeReg, List.foldl_cons]
      rw [show (List.foldl (fun reg t => alSet reg t (alSet ((alGet reg t).getD []) id ref)) (alSet reg u (alSet ((alGet reg u).getD []) id ref)) rest) = subscribeReg id ref rest (alSet reg u (alSet ((alGet reg u).getD []) id ref)) from rfl]
      by_cases hr : t ∈ rest
      · rw [ih hr]
        by_cases hu : t = u
        · subst hu
          rw [alGet_alSet_self]
          simp only [Option.getD_some]
          rw [alSet_idem]
        · rw [alGet_alSet_ne _ _ hu]
      · have hu : t = u := by
          rcases List.mem_cons.mp h with h₁ | h₁
          · exact h₁
          · exact absurd h₁ hr
        subst hu
        rw [subscribeReg_get_notmem id ref hr]
        rw [alGet_alSet_self]

theorem subscribeReg_keysNodup (id : String) (ref : Nat)
    (topics : List String) {reg : List (String × List (String × Nat))}
    (h : (reg.map Prod.fst).Nodup) :
    ((subscribeReg id ref topics reg).map Prod.fst).Nodup := by
  induction topics generalizing reg with
  | nil => exact h
  | cons u rest ih =>
      simp only [subscribeReg, List.foldl_cons]
      exact ih (keysNodup_alSet u _ h)

/-! ## Characterization of the Unsubscribe registry fold -/

/-- Effect on one topic's lookup of removing subscriber `id` from it. -/
def unsubSpec (o : Option (List (String × Nat))) (id : String) :
    Option (List (String × Nat)) :=
  match o with
  | none => none
  | some subs =>
      let subs' := alDel subs id
      if subs' = [] then none else some subs'

theorem unsubSpec_none (id : String) : unsubSpec none id = none := rfl

theorem unsubSpec_some (subs : List (String × Nat)) (id : String) :
    unsubSpec (some subs) id =
      if alDel subs id = [] then none else some (alDel subs id) := rfl

theorem unsubTopic_get_ne {reg : List (String × List (String × Nat))}
    {id u t : String} (h : t ≠ u) :
    alGet (unsubTopic reg id u) t = alGet reg t := by
  unfold unsubTopic
  cases hg : alGet reg u with
  | none => rfl
  | some subs =>
      by_cases he : alDel subs id = []
      · simp only [he, if_pos rfl]
        exact alGet_alDel_ne reg h
      · simp only [he, if_neg he]
        exact alGet_alSet_ne _ _ h

theorem unsubTopic_get_self (reg : List (String × List (String × Nat)))
    (id t : String) :
    alGet (unsubTopic reg id t) t = unsubSpec (alGet reg t) id := by
  unfold unsubTopic unsubSpec
  cases hg : alGet reg t with
  | none => simp [hg]
  | some subs =>
      by_cases he : alDel subs id = []
      · simp only [he, if_pos rfl]
        exact alGet_alDel_self reg t
      · simp only [he, if_neg he]
        exact alGet_alSet_self _ _ _

theorem not_mem_alDel_self {β : Type} (l : List (String × β)) (k : String)
    (v : β) : (k, v) ∉ alDel l k := by
  intro h
  exact (mem_alDel h).2 rfl

theorem unsubSpec_idem (o : Option (List (String × Nat))) (id : String) :
    unsubSpec (unsubSpec o id) id = unsubSpec o id := by
  cases o with
  | none => rfl
  | some subs =>
      by_cases he : alDel subs id = []
      · simp [unsubSpec, he]
      · have hfree : ∀ v, (id, v) ∉ alDel subs id :=
          fun v => not_mem_alDel_self subs id v
        simp [unsubSpec, he, alDel_eq_self hfree]

theorem fold_unsub_get_notmem {id : String} {l : List String} {t : String}
    (h : t ∉ l) (reg : List (String × List (String × Nat))) :
    alGet (l.foldl (fun reg u => unsubTopic reg id u) reg) t = alGet reg t := by
  induction l generalizing reg with
  | nil => rfl
  | cons u rest ih =>
      have hu : t ≠ u := fun he => h (he ▸ List.mem_cons_self _ _)
      have hrest : t ∉ rest := fun hr => h (List.mem_cons_of_mem _ hr)
      simp only [List.foldl_cons]
      rw [ih hrest, unsubTopic_get_ne hu]

theorem fold_unsub_get_mem (id : String) {l : List String} {t : String}
    (h : t ∈ l) (reg : List (String × List (String × Nat))) :
    alGet (l.foldl (fun reg u => unsubTopic reg id u) reg) t =
      unsubSpec (alGet reg t) id := by
  induction l generalizing reg with
  | nil => cases h
  | cons u rest ih =>
      simp only [List.foldl_cons]
      by_cases hu : t = u
      · subst hu
        by_cases hr : t ∈ rest
        · rw [ih hr, unsubTopic_get_self, unsubSpec_idem]
        · rw [fold_unsub_get_notmem hr, unsubTopic_get_self]
      · have hr : t ∈ rest := by
          rcases List.mem_cons.mp h with h₁ | h₁
          · exact absurd h₁ hu
          · exact h₁
        rw [ih hr, unsubTopic_get_ne hu]

theorem unsubTopic_keysNodup {reg : List (String × List (String × Nat))}
    (id u : String) (h : (reg.map Prod.fst).Nodup) :
    ((unsubTopic reg id u).map Prod.fst).Nodup := by
  unfold unsubTopic
  cases hg : alGet reg u with
  | none => exact h
  | some subs =>
      by_cases he : alDel subs id = []
      · simp only [he, if_pos rfl]
        exact keysNodup_alDel u h
      · simp only [he, if_neg he]
        exact keysNodup_alSet u _ h

theorem fold_unsub_keysNodup (id : String) (l : List String)
    {reg : List (String × List (String × Nat))}
    (h : (reg.map Prod.fst).Nodup) :
    (((l.foldl (fun reg u => unsubTopic reg id u) reg)).map Prod.fst).Nodup := by
  induction l generalizing reg with
  | nil => exact h
  | cons u rest ih =>
      simp only [List.foldl_cons]
      exact ih (unsubTopic_keysNodup id u h)

theorem unsubTopic_get_origin {reg : List (String × List (String × Nat))}
    {id u t : String} {subs₁ : List (String × Nat)} {q : String × Nat}
    (hget : alGet (unsubTopic reg id u) t = some subs₁) (hq : q ∈ subs₁) :
    ∃ subs, alGet reg t = some subs ∧ q ∈ subs := by
  by_cases hu : t = u
  · subst hu
    rw [unsubTopic_get_self] at hget
    unfold unsubSpec at hget
    cases hg : alGet reg t with
    | none => rw [hg] at hget; cases hget
    | some subs =>
        rw [hg] at hget
        by_cases he : alDel subs id = []
        · simp [he] at hget
        · simp only [he, if_neg he] at hget
          cases hget
          exact ⟨subs, rfl, (mem_alDel hq).1⟩
  · rw [unsubTopic_get_ne hu] at hget
    exact ⟨subs₁, hget, hq⟩

theorem fold_unsub_get_origin {id : String} {l : List String}
    {reg : List (String × List (String × Nat))} {t : String}
    {subs₁ : List (String × Nat)} {q : String × Nat}
    (hget : alGet (l.foldl (fun reg u => unsubTopic reg id u) reg) t = some subs₁)
    (hq : q ∈ subs₁) : ∃ subs, alGet reg t = some subs ∧ q ∈ subs := by
  induction l generalizing reg with
  | nil => exact ⟨subs₁, hget, hq⟩
  | cons u rest ih =>
      simp only [List.foldl_cons] at hget
      rcases ih hget with ⟨subs₂, hget₂, hq₂⟩
      exact unsubTopic_get_origin hget₂ hq₂

/-! ## Characterization of the Publish delivery loop -/

/-- Specification predicate: a subscriber reference that would receive a
published event — stored, scope still active, queue below its bound. -/
def deliverable (store : Nat → Option SubObj) (r : Nat) : Bool :=
  match store r with
  | none => false
  | some sub => !sub.cancelled && decide (sub.queue.length < sub.cap)

/-- Relation between a subscriber object before and after a delivery loop:
only the queue may have changed, and a queue within its bound stays so. -/
def QOnly (sub sub' : SubObj) : Prop :=
  sub'.id = sub.id ∧ sub'.topics = sub.topics ∧ sub'.cap = sub.cap ∧
    sub'.closes = sub.closes ∧ sub'.cancelled = sub.cancelled ∧
    (sub.queue.length ≤ sub.cap → sub'.queue.length ≤ sub'.cap)

theorem QOnly_refl (sub : SubObj) : QOnly sub sub :=
  ⟨rfl, rfl, rfl, rfl, rfl, id⟩

theorem QOnly_trans {a b c : SubObj} (h₁ : QOnly a b) (h₂ : QOnly b c) :
    QOnly a c := by
  obtain ⟨i₁, t₁, c₁, cl₁, ca₁, q₁⟩ := h₁
  obtain ⟨i₂, t₂, c₂, cl₂, ca₂, q₂⟩ := h₂
  exact ⟨i₂.trans i₁, t₂.trans t₁, c₂.trans c₁, cl₂.trans cl₁, ca₂.trans ca₁,
    fun h => q₂ (q₁ h)⟩

theorem busDeliver_store_spec (e : Event) (l : List (String × Nat))
    (store : Nat → Option SubObj) (x : Nat) :
    (store x = none → (busDeliver store e l).1 x = none) ∧
    (∀ sub, store x = some sub →
      ∃ sub', (busDeliver store e l).1 x = some sub' ∧ QOnly sub sub') := by
  induction l generalizing store with
  | nil => exact ⟨fun h => h, fun sub h => ⟨sub, h, QOnly_refl sub⟩⟩
  | cons q rest ih =>
      obtain ⟨i, r⟩ := q
      simp only [busDeliver]
      cases hr : store r with
      | none => exact ih store
      | some sub =>
          by_cases hc : sub.cancelled
          · simp only [if_pos hc]
            exact ih store
          · simp only [if_neg hc]
            by_cases hq : sub.queue.length < sub.cap
            · simp only [if_pos hq]
              set store' : Nat → Option SubObj := fun y =>
                if y = r then some { sub with queue := sub.queue ++ [e] }
                else store y with hstore'
              constructor
              · intro hx
                have hxr : x ≠ r := by
                  rintro rfl
                  rw [hx] at hr
                  cases hr
                have hx' : store' x = none := by
                  simp only [hstore', if_neg hxr]
                  exact hx
                exact (ih store').1 hx'
              · intro sub₀ hx
                by_cases hxr : x = r
                · subst hxr
                  rw [hx] at hr
                  have hsub : sub₀ = sub := Option.some.inj hr
                  subst hsub
                  have hx' : store' x = some { sub₀ with queue := sub₀.queue ++ [e] } := by
                    simp [hstore']
                  rcases (ih store').2 _ hx' with ⟨sub', hget, honly⟩
                  refine ⟨sub', hget, QOnly_trans ?_ honly⟩
                  refine ⟨rfl, rfl, rfl, rfl, rfl, fun _ => ?_⟩
                  simpa using Nat.succ_le_of_lt hq
                · have hx' : store' x = some sub₀ := by
                    simp only [hstore', if_neg hxr]
                    exact hx
                  exact (ih store').2 _ hx'
            · simp only [if_neg hq]
              exact ih store

theorem busDeliver_get_notmem (e : Event) {l : List (String × Nat)}
    {x : Nat} (h : ∀ q ∈ l, q.2 ≠ x) (store : Nat → Option SubObj) :
    (busDeliver store e l).1 x = store x := by
  induction l generalizing store with
  | nil => rfl
  | cons q rest ih =>
      obtain ⟨i, r⟩ := q
      have hxr : r ≠ x := h (i, r) (List.mem_cons_self _ _)
      have hrest : ∀ q ∈ rest, q.2 ≠ x := fun q hq => h q (List.mem_cons_of_mem _ hq)
      simp only [busDeliver]
      cases hr : store r with
      | none => exact ih hrest store
      | some sub =>
          by_cases hc : sub.cancelled
          · simp only [if_pos hc]
            exact ih hrest store
          · simp only [if_neg hc]
            by_cases hq : sub.queue.length < sub.cap
            · simp only [if_pos hq]
              rw [ih hrest]
              simp [if_neg (fun he : x = r => hxr he.symm)]
            · simp only [if_neg hq]
              exact ih hrest store

theorem busDeliver_get_mem (e : Event) {l : List (String × Nat)}
    (hnd : (l.map Prod.snd).Nodup) {i : String} {r : Nat} (hmem : (i, r) ∈ l)
    (store : Nat → Option SubObj) :
    (busDeliver store e l).1 r =
      match store r with
      | none => none
      | some sub =>
          if sub.cancelled = false ∧ sub.queue.length < sub.cap
          then some { sub with queue := sub.queue ++ [e] } else some sub := by
  induction l generalizing store with
  | nil => cases hmem
  | cons q rest ih =>
      obtain ⟨i₀, r₀⟩ := q
      simp only [List.map_cons, List.nodup_cons] at hnd
      by_cases hr₀ : r = r₀
      · subst hr₀
        have hrest : ∀ q ∈ rest, q.2 ≠ r := by
          intro q hq he
          exact hnd.1 (he ▸ List.mem_map.mpr ⟨q, hq, rfl⟩)
        simp only [busDeliver]
        cases hs : store r with
        | none => rw [busDeliver_get_notmem e hrest store, hs]
        | some sub =>
            by_cases hc : sub.cancelled
            · simp only [if_pos hc]
              rw [busDeliver_get_notmem e hrest store, hs]
              have : ¬ (sub.cancelled = false ∧ sub.queue.length < sub.cap) := by
                rintro ⟨hfalse, _⟩
                rw [hc] at hfalse
                cases hfalse
              simp [this]
            · simp only [if_neg hc]
              by_cases hq : sub.queue.length < sub.cap
              · simp only [if_pos hq]
                rw [busDeliver_get_notmem e hrest]
                have hcond : sub.cancelled = false ∧ sub.queue.length < sub.cap :=
                  ⟨Bool.eq_false_iff.mpr hc, hq⟩
                simp [hcond]
              · simp only [if_neg hq]
                rw [busDeliver_get_notmem e hrest store, hs]
                have : ¬ (sub.cancelled = false ∧ sub.queue.length < sub.cap) := by
                  rintro ⟨_, hlt⟩
                  exact hq hlt
                simp [this]
      · have hmem' : (i, r) ∈ rest := by
          rcases List.mem_cons.mp hmem with h₁ | h₁
          · cases h₁; exact absurd rfl hr₀
          · exact h₁
        simp only [busDeliver]
        cases hs : store r₀ with
        | none => exact ih hnd.2 hmem' store
        | some sub =>
            by_cases hc : sub.cancelled
            · simp only [if_pos hc]
              exact ih hnd.2 hmem' store
            · simp only [if_neg hc]
              by_cases hq : sub.queue.length < sub.cap
              · simp only [if_pos hq]
                have := ih hnd.2 hmem' (fun y =>
                  if y = r₀ then some { sub with queue := sub.queue ++ [e] }
                  else store y)
                rw [this]
                simp [if_neg hr₀]
              · simp only [if_neg hq]
                exact ih hnd.2 hmem' store

theorem busDeliver_count (e : Event) {l : List (String × Nat)}
    (hnd : (l.map Prod.snd).Nodup) (store : Nat → Option SubObj) :
    (busDeliver store e l).2 = l.countP (fun q => deliverable store q.2) := by
  induction l generalizing store with
  | nil => rfl
  | cons q rest ih =>
      obtain ⟨i, r⟩ := q
      simp only [List.map_cons, List.nodup_cons] at hnd
      have hrest : ∀ q ∈ rest, q.2 ≠ r := by
        intro q hq he
        exact hnd.1 (he ▸ List.mem_map.mpr ⟨q, hq, rfl⟩)
      simp only [busDeliver]
      cases hs : store r with
      | none =>
          rw [ih hnd.2 store]
          simp [List.countP_cons, deliverable, hs]
      | some sub =>
          by_cases hc : sub.cancelled
          · simp only [if_pos hc]
            rw [ih hnd.2 store]
            simp [List.countP_cons, deliverable, hs, hc]
          · simp only [if_neg hc]
            by_cases hq : sub.queue.length < sub.cap
            · simp only [if_pos hq]
              set store' : Nat → Option SubObj := fun y =>
                if y = r then some { sub with queue := sub.queue ++ [e] }
                else store y with hstore'
              rw [ih hnd.2 store']
              have hcongr : ∀ q ∈ rest,
                  deliverable store' q.2 = true ↔ deliverable store q.2 = true := by
                intro q hqmem
                have : store' q.2 = store q.2 := by
                  simp only [hstore', if_neg (hrest q hqmem)]
                simp [deliverable, this]
              rw [List.countP_congr hcongr]
              simp [List.countP_cons, deliverable, hs, hc, hq, Nat.add_comm]
            · simp only [if_neg hq]
              rw [ih hnd.2 store]
              simp [List.countP_cons, deliverable, hs, hq]

theorem unsubTopic_get_shape {reg : List (String × List (String × Nat))}
    {id u t : String} {subs₁ : List (String × Nat)}
    (hget : alGet (unsubTopic reg id u) t = some subs₁) :
    ∃ subs, alGet reg t = some subs ∧ (subs₁ = subs ∨ subs₁ = alDel subs id) := by
  by_cases hu : t = u
  · subst hu
    rw [unsubTopic_get_self] at hget
    unfold unsubSpec at hget
    cases hg : alGet reg t with
    | none => rw [hg] at hget; cases hget
    | some subs =>
        rw [hg] at hget
        by_cases he : alDel subs id = []
        · simp [he] at hget
        · simp only [he, if_neg he] at hget
          exact ⟨subs, rfl, Or.inr (Option.some.inj hget).symm⟩
  · rw [unsubTopic_get_ne hu] at hget
    exact ⟨subs₁, hget, Or.inl rfl⟩

theorem fold_unsub_get_shape {id : String} {l : List String}
    {reg : List (String × List (String × Nat))} {t : String}
    {subs₁ : List (String × Nat)}
    (hget : alGet (l.foldl (fun reg u => unsubTopic reg id u) reg) t = some subs₁) :
    ∃ subs, alGet reg t = some subs ∧ (subs₁ = subs ∨ subs₁ = alDel subs id) := by
  induction l generalizing reg with
  | nil => exact ⟨subs₁, hget, Or.inl rfl⟩
  | cons u rest ih =>
      simp only [List.foldl_cons] at hget
      rcases ih hget with ⟨subs₂, hget₂, hsh₂⟩
      rcases unsubTopic_get_shape hget₂ with ⟨subs, hget₁, hsh₁⟩
      refine ⟨subs, hget₁, ?_⟩
      rcases hsh₂ with rfl | rfl
      · exact hsh₁
      · rcases hsh₁ with rfl | rfl
        · exact Or.inr rfl
        · exact Or.inr (alDel_idem subs id)

/-! ## The bus well-formedness invariant -/

/-- Invariant of the bus registry and store: fresh references are
unallocated, topic and subscriber maps have no duplicate keys, every
registry entry resolves to a stored subscriber whose id matches its key
and whose topic list holds the topic, and every queue respects its bound. -/
structure BusWF (st : PubSubState) : Prop where
  freshNone : ∀ x, st.nextRef ≤ x → st.store x = none
  topicKeysNodup : (st.registry.map Prod.fst).Nodup
  innerKeysNodup : ∀ p ∈ st.registry, (p.2.map Prod.fst).Nodup
  entries : ∀ p ∈ st.registry, ∀ q ∈ p.2,
    ∃ sub, st.store q.2 = some sub ∧ sub.id = q.1 ∧ p.1 ∈ sub.topics
  capBound : ∀ r sub, st.store r = some sub → sub.queue.length ≤ sub.cap

theorem busWF_new (b : Int) : BusWF (NewPubSub b) := by
  refine ⟨fun x _ => rfl, ?_, ?_, ?_, ?_⟩
  · simp [NewPubSub]
  · intro p hp; cases hp
  · intro p hp; cases hp
  · intro r sub h; cases h

theorem ref_lt_nextRef {st : PubSubState} (wf : BusWF st) {r : Nat}
    {sub : SubObj} (h : st.store r = some sub) : r < st.nextRef := by
  by_contra hge
  rw [wf.freshNone r (Nat.le_of_not_lt hge)] at h
  cases h

/-- The subscriber object allocated by Subscribe. -/
def subObjOf (st : PubSubState) (id : String) (topics : List String) : SubObj :=
  { id := id, topics := topics, queue := [], cap := st.bufferSize
    closes := 0, cancelled := false }

theorem Subscribe_ref (st : PubSubState) (id : String) (topics : List String) :
    (Subscribe st id topics).2 = st.nextRef := rfl

theorem Subscribe_nextRef (st : PubSubState) (id : String) (topics : List String) :
    (Subscribe st id topics).1.nextRef = st.nextRef + 1 := rfl

theorem Subscribe_registry (st : PubSubState) (id : String) (topics : List String) :
    (Subscribe st id topics).1.registry = subscribeReg id st.nextRef topics st.registry := rfl

theorem Subscribe_bufferSize (st : PubSubState) (id : String) (topics : List String) :
    (Subscribe st id topics).1.bufferSize = st.bufferSize := rfl

theorem Subscribe_store_self (st : PubSubState) (id : String) (topics : List String) :
    (Subscribe st id topics).1.store st.nextRef = some (subObjOf st id topics) := by
  simp [Subscribe, subObjOf]

theorem Subscribe_store_ne (st : PubSubState) (id : String) (topics : List String)
    {x : Nat} (h : x ≠ st.nextRef) :
    (Subscribe st id topics).1.store x = st.store x := by
  simp [Subscribe, h]

theorem Unsubscribe_eq_of_none {st : PubSubState} {r : Nat}
    (hs : st.store r = none) : Unsubscribe st r = st := by
  simp [Unsubscribe, hs]

theorem Unsubscribe_registry {st : PubSubState} {r : Nat} {sub : SubObj}
    (hs : st.store r = some sub) :
    (Unsubscribe st r).registry =
      sub.topics.foldl (fun reg t => unsubTopic reg sub.id t) st.registry := by
  simp [Unsubscribe, hs]

theorem Unsubscribe_store_self {st : PubSubState} {r : Nat} {sub : SubObj}
    (hs : st.store r = some sub) :
    (Unsubscribe st r).store r =
      some { sub with cancelled := true, closes := sub.closes + 1 } := by
  simp [Unsubscribe, hs]

theorem Unsubscribe_store_ne {st : PubSubState} {r : Nat} {sub : SubObj}
    (hs : st.store r = some sub) {x : Nat} (h : x ≠ r) :
    (Unsubscribe st r).store x = st.store x := by
  simp [Unsubscribe, hs, h]

theorem Unsubscribe_nextRef (st : PubSubState) (r : Nat) :
    (Unsubscribe st r).nextRef = st.nextRef := by
  unfold Unsubscribe
  cases st.store r <;> rfl

theorem Publish_registry (st : PubSubState) (topic payload : String) (now : Nat) :
    (Publish st topic payload now).1.registry = st.registry := rfl

theorem Publish_nextRef (st : PubSubState) (topic payload : String) (now : Nat) :
    (Publish st topic payload now).1.nextRef = st.nextRef := rfl

theorem Publish_store (st : PubSubState) (topic payload : String) (now : Nat) :
    (Publish st topic payload now).1.store =
      (busDeliver st.store { topic := topic, payload := payload, timestamp := now }
        ((alGet st.registry topic).getD [])).1 := rfl

theorem Publish_count (st : PubSubState) (topic payload : String) (now : Nat) :
    (Publish st topic payload now).2 =
      (busDeliver st.store { topic := topic, payload := payload, timestamp := now }
        ((alGet st.registry topic).getD [])).2 := rfl

theorem CancelScope_registry (st : PubSubState) (r : Nat) :
    (CancelScope st r).registry = st.registry := rfl

theorem CancelScope_nextRef (st : PubSubState) (r : Nat) :
    (CancelScope st r).nextRef = st.nextRef := rfl

theorem CancelScope_store_self (st : PubSubState) (r : Nat) :
    (CancelScope st r).store r =
      (st.store r).map (fun sub => { sub with cancelled := true }) := by
  simp [CancelScope]

theorem CancelScope_store_ne (st : PubSubState) (r : Nat) {x : Nat} (h : x ≠ r) :
    (CancelScope st r).store x = st.store x := by
  simp [CancelScope, h]

theorem busWF_subscribe {st : PubSubState} (wf : BusWF st) (id : String)
    (topics : List String) : BusWF (Subscribe st id topics).1 := by
  constructor
  · intro x hx
    rw [Subscribe_nextRef] at hx
    have hxr : x ≠ st.nextRef := by omega
    rw [Subscribe_store_ne st id topics hxr]
    exact wf.freshNone x (by omega)
  · rw [Subscribe_registry]
    exact subscribeReg_keysNodup id st.nextRef topics wf.topicKeysNodup
  · intro p hp
    rw [Subscribe_registry] at hp
    have hnd' := subscribeReg_keysNodup id st.nextRef topics wf.topicKeysNodup
    have hget := alGet_eq_of_mem_nodup hnd' hp
    by_cases ht : p.1 ∈ topics
    · rw [subscribeReg_get_mem id st.nextRef ht] at hget
      have hp2 : p.2 = alSet ((alGet st.registry p.1).getD []) id st.nextRef :=
        (Option.some.inj hget).symm
      rw [hp2]
      cases hg : alGet st.registry p.1 with
      | none => simp [alSet, alDel, alGet]
      | some subs =>
          have hsubs := keysNodup_alSet id st.nextRef
            (show (subs.map Prod.fst).Nodup from wf.innerKeysNodup _ (mem_of_alGet hg))
          simpa [hg] using hsubs
    · rw [subscribeReg_get_notmem id st.nextRef ht] at hget
      exact wf.innerKeysNodup _ (mem_of_alGet hget)
  · intro p hp q hq
    rw [Subscribe_registry] at hp
    have hnd' := subscribeReg_keysNodup id st.nextRef topics wf.topicKeysNodup
    have hget := alGet_eq_of_mem_nodup hnd' hp
    by_cases ht : p.1 ∈ topics
    · rw [subscribeReg_get_mem id st.nextRef ht] at hget
      have hp2 : p.2 = alSet ((alGet st.registry p.1).getD []) id st.nextRef :=
        (Option.some.inj hget).symm
      rw [hp2] at hq
      rcases List.mem_cons.mp hq with h₁ | h₁
      · refine ⟨subObjOf st id topics, ?_, ?_, ?_⟩
        · rw [h₁]
          exact Subscribe_store_self st id topics
        · rw [h₁]
          rfl
        · simpa [subObjOf] using ht
      · have hq₀ : q ∈ (alGet st.registry p.1).getD [] := (mem_alDel h₁).1
        cases hg : alGet st.registry p.1 with
        | none => rw [hg] at hq₀; cases hq₀
        | some subs =>
            rw [hg] at hq₀
            rcases wf.entries _ (mem_of_alGet hg) q hq₀ with ⟨sub, hsub, hid, htop⟩
            have hne : q.2 ≠ st.nextRef := by
              intro he
              rw [he] at hsub
              rw [wf.freshNone st.nextRef (le_refl _)] at hsub
              cases hsub
            refine ⟨sub, ?_, hid, htop⟩
            rw [Subscribe_store_ne st id topics hne]
            exact hsub
    · rw [subscribeReg_get_notmem id st.nextRef ht] at hget
      rcases wf.entries _ (mem_of_alGet hget) q hq with ⟨sub, hsub, hid, htop⟩
      have hne : q.2 ≠ st.nextRef := by
        intro he
        rw [he] at hsub
        rw [wf.freshNone st.nextRef (le_refl _)] at hsub
        cases hsub
      refine ⟨sub, ?_, hid, htop⟩
      rw [Subscribe_store_ne st id topics hne]
      exact hsub
  · intro x sub h
    by_cases hx : x = st.nextRef
    · subst hx
      rw [Subscribe_store_self] at h
      have hsub : sub = subObjOf st id topics := (Option.some.inj h).symm
      rw [hsub]
      simp [subObjOf]
    · rw [Subscribe_store_ne st id topics hx] at h
      exact wf.capBound x sub h

theorem busWF_unsubscribe {st : PubSubState} (wf : BusWF st) (r : Nat) :
    BusWF (Unsubscribe st r) := by
  cases hs : st.store r with
  | none => rw [Unsubscribe_eq_of_none hs]; exact wf
  | some sub =>
      constructor
      · intro x hx
        rw [Unsubscribe_nextRef] at hx
        have hxr : x ≠ r := by
          intro he
          subst he
          have := ref_lt_nextRef wf hs
          omega
        rw [Unsubscribe_store_ne hs hxr]
        exact wf.freshNone x hx
      · rw [Unsubscribe_registry hs]
        exact fold_unsub_keysNodup sub.id _ wf.topicKeysNodup
      · intro p hp
        rw [Unsubscribe_registry hs] at hp
        have hnd' := fold_unsub_keysNodup sub.id sub.topics wf.topicKeysNodup
        have hget := alGet_eq_of_mem_nodup hnd' hp
        rcases fold_unsub_get_shape hget with ⟨subs, hget₀, hsh⟩
        rcases hsh with heq | heq
        · rw [heq]
          exact wf.innerKeysNodup _ (mem_of_alGet hget₀)
        · rw [heq]
          exact keysNodup_alDel _ (wf.innerKeysNodup _ (mem_of_alGet hget₀))
      · intro p hp q hq
        rw [Unsubscribe_registry hs] at hp
        have hnd' := fold_unsub_keysNodup sub.id sub.topics wf.topicKeysNodup
        have hget := alGet_eq_of_mem_nodup hnd' hp
        rcases fold_unsub_get_shape hget with ⟨subs, hget₀, hsh⟩
        have hq₀ : q ∈ subs := by
          rcases hsh with heq | heq
          · rw [heq] at hq; exact hq
          · rw [heq] at hq; exact (mem_alDel hq).1
        rcases wf.entries _ (mem_of_alGet hget₀) q hq₀ with ⟨sub₀, hsub₀, hid, htop⟩
        by_cases hqr : q.2 = r
        · rw [hqr, hs] at hsub₀
          have hss : sub₀ = sub := (Option.some.inj hsub₀).symm
          refine ⟨{ sub with cancelled := true, closes := sub.closes + 1 }, ?_, ?_, ?_⟩
          · rw [hqr]
            exact Unsubscribe_store_self hs
          · rw [← hss] at *
            exact hid
          · rw [← hss] at *
            exact htop
        · refine ⟨sub₀, ?_, hid, htop⟩
          rw [Unsubscribe_store_ne hs hqr]
          exact hsub₀
      · intro x sub₁ h
        by_cases hx : x = r
        · subst hx
          rw [Unsubscribe_store_self hs] at h
          have hss : sub₁ = { sub with cancelled := true, closes := sub.closes + 1 } :=
            (Option.some.inj h).symm
          rw [hss]
          exact wf.capBound x sub hs
        · rw [Unsubscribe_store_ne hs hx] at h
          exact wf.capBound x sub₁ h

theorem busWF_publish {st : PubSubState} (wf : BusWF st) (topic payload : String)
    (now : Nat) : BusWF (Publish st topic payload now).1 := by
  constructor
  · intro x hx
    rw [Publish_nextRef] at hx
    rw [Publish_store]
    exact (busDeliver_store_spec _ _ st.store x).1 (wf.freshNone x hx)
  · rw [Publish_registry]
    exact wf.topicKeysNodup
  · intro p hp
    rw [Publish_registry] at hp
    exact wf.innerKeysNodup p hp
  · intro p hp q hq
    rw [Publish_registry] at hp
    rw [Publish_store]
    rcases wf.entries p hp q hq with ⟨sub, hsub, hid, htop⟩
    rcases (busDeliver_store_spec _ _ st.store q.2).2 sub hsub with ⟨sub', hget, honly⟩
    exact ⟨sub', hget, honly.1.trans hid, honly.2.1 ▸ htop⟩
  · intro x sub' h
    rw [Publish_store] at h
    cases hsx : st.store x with
    | none =>
        rw [(busDeliver_store_spec _ _ st.store x).1 hsx] at h
        cases h
    | some sub =>
        rcases (busDeliver_store_spec _ _ st.store x).2 sub hsx with ⟨sub'', hget, honly⟩
        rw [hget] at h
        have hss : sub'' = sub' := Option.some.inj h
        rw [← hss]
        exact honly.2.2.2.2.2 (wf.capBound x sub hsx)

theorem busWF_cancelScope {st : PubSubState} (wf : BusWF st) (r : Nat) :
    BusWF (CancelScope st r) := by
  constructor
  · intro x hx
    rw [CancelScope_nextRef] at hx
    by_cases hxr : x = r
    · subst hxr
      rw [CancelScope_store_self, wf.freshNone x hx]
      rfl
    · rw [CancelScope_store_ne st r hxr]
      exact wf.freshNone x hx
  · rw [CancelScope_registry]
    exact wf.topicKeysNodup
  · intro p hp
    rw [CancelScope_registry] at hp
    exact wf.innerKeysNodup p hp
  · intro p hp q hq
    rw [CancelScope_registry] at hp
    rcases wf.entries p hp q hq with ⟨sub, hsub, hid, htop⟩
    by_cases hqr : q.2 = r
    · refine ⟨{ sub with cancelled := true }, ?_, hid, htop⟩
      rw [hqr, CancelScope_store_self, ← hqr, hsub]
      rfl
    · refine ⟨sub, ?_, hid, htop⟩
      rw [CancelScope_store_ne st r hqr]
      exact hsub
  · intro x sub' h
    by_cases hx : x = r
    · subst hx
      rw [CancelScope_store_self] at h
      cases hsx : st.store x with
      | none => rw [hsx] at h; cases h
      | some sub =>
          rw [hsx] at h
          have hss : { sub with cancelled := true } = sub' := Option.some.inj h
          rw [← hss]
          exact wf.capBound x sub hsx
    · rw [CancelScope_store_ne st r hx] at h
      exact wf.capBound x sub' h

theorem busWF_reachable {st : PubSubState} (h : BusReach st) : BusWF st := by
  induction h with
  | init b => exact busWF_new b
  | subscribe id topics _ ih => exact busWF_subscribe ih id topics
  | unsubscribe r _ ih => exact busWF_unsubscribe ih r
  | publish topic payload now _ ih => exact busWF_publish ih topic payload now
  | cancelScope r _ ih => exact busWF_cancelScope ih r

/-! ## Hub store and delivery lemmas -/

theorem updObj_self (store : ClientRef → Option ClientObj) (c : ClientRef)
    (f : ClientObj → ClientObj) : updObj store c f c = (store c).map f := by
  simp [updObj]

theorem updObj_ne (store : ClientRef → Option ClientObj) (c : ClientRef)
    (f : ClientObj → ClientObj) {x : ClientRef} (h : x ≠ c) :
    updObj store c f x = store x := by
  simp [updObj, h]

theorem updObj_isSome (store : ClientRef → Option ClientObj) (c : ClientRef)
    (f : ClientObj → ClientObj) (x : ClientRef) :
    (updObj store c f x).isSome = (store x).isSome := by
  by_cases h : x = c
  · subst h
    rw [updObj_self]
    cases store x <;> rfl
  · rw [updObj_ne store c f h]

/-- Relation between a client object before and after a delivery loop:
only the send queue may have changed, and a queue within its bound stays
within it. -/
def SOnly (o o' : ClientObj) : Prop :=
  o'.id = o.id ∧ o'.userId = o.userId ∧ o'.sendCap = o.sendCap ∧
    o'.closes = o.closes ∧ o'.rooms = o.rooms ∧
    (o.send.length ≤ o.sendCap → o'.send.length ≤ o'.sendCap)

theorem SOnly_refl (o : ClientObj) : SOnly o o :=
  ⟨rfl, rfl, rfl, rfl, rfl, id⟩

theorem SOnly_trans {a b c : ClientObj} (h₁ : SOnly a b) (h₂ : SOnly b c) :
    SOnly a c := by
  obtain ⟨i₁, u₁, c₁, cl₁, r₁, q₁⟩ := h₁
  obtain ⟨i₂, u₂, c₂, cl₂, r₂, q₂⟩ := h₂
  exact ⟨i₂.trans i₁, u₂.trans u₁, c₂.trans c₁, cl₂.trans cl₁, r₂.trans r₁,
    fun h => q₂ (q₁ h)⟩

theorem SOnly_trySend (o : ClientObj) (d : Message) : SOnly o (trySend o d) := by
  unfold trySend
  by_cases h : o.send.length < o.sendCap
  · simp only [if_pos h]
    refine ⟨rfl, rfl, rfl, rfl, rfl, fun _ => ?_⟩
    simpa using Nat.succ_le_of_lt h
  · simp only [if_neg h]
    exact SOnly_refl o

theorem hubDeliver_store_spec (d : Message) (l : List ClientRef)
    (store : ClientRef → Option ClientObj) (x : ClientRef) :
    (store x = none → hubDeliver store d l x = none) ∧
    (∀ o, store x = some o →
      ∃ o', hubDeliver store d l x = some o' ∧ SOnly o o') := by
  induction l generalizing store with
  | nil => exact ⟨fun h => h, fun o h => ⟨o, h, SOnly_refl o⟩⟩
  | cons c rest ih =>
      simp only [hubDeliver]
      constructor
      · intro hx
        have hx' : updObj store c (fun o => trySend o d) x = none := by
          by_cases hxc : x = c
          · subst hxc
            rw [updObj_self, hx]
            rfl
          · rw [updObj_ne store c _ hxc]
            exact hx
        exact (ih _).1 hx'
      · intro o hx
        by_cases hxc : x = c
        · subst hxc
          have hx' : updObj store x (fun o => trySend o d) x = some (trySend o d) := by
            rw [updObj_self, hx]
            rfl
          rcases (ih _).2 _ hx' with ⟨o', hget, honly⟩
          exact ⟨o', hget, SOnly_trans (SOnly_trySend o d) honly⟩
        · have hx' : updObj store c (fun o => trySend o d) x = some o := by
            rw [updObj_ne store c _ hxc]
            exact hx
          exact (ih _).2 _ hx'

theorem hubDeliver_get_notmem (d : Message) {l : List ClientRef} {x : ClientRef}
    (h : x ∉ l) (store : ClientRef → Option ClientObj) :
    hubDeliver store d l x = store x := by
  induction l generalizing store with
  | nil => rfl
  | cons c rest ih =>
      have hxc : x ≠ c := fun he => h (he ▸ List.mem_cons_self _ _)
      have hrest : x ∉ rest := fun hr => h (List.mem_cons_of_mem _ hr)
      simp only [hubDeliver]
      rw [ih hrest]
      exact updObj_ne store c _ hxc

theorem hubDeliver_get_mem (d : Message) {l : List ClientRef}
    (hnd : l.Nodup) {c : ClientRef} (hmem : c ∈ l)
    (store : ClientRef → Option ClientObj) :
    hubDeliver store d l c = (store c).map (fun o => trySend o d) := by
  induction l generalizing store with
  | nil => cases hmem
  | cons c₀ rest ih =>
      rw [List.nodup_cons] at hnd
      by_cases hc : c = c₀
      · subst hc
        simp only [hubDeliver]
        rw [hubDeliver_get_notmem d hnd.1]
        exact updObj_self store c _
      · have hmem' : c ∈ rest := by
          rcases List.mem_cons.mp hmem with h₁ | h₁
          · exact absurd h₁ hc
          · exact h₁
        simp only [hubDeliver]
        rw [ih hnd.2 hmem']
        rw [updObj_ne store c₀ _ hc]

/-! ## Characterization of the unregister room sweep -/

theorem mem_unregRooms_key {rs : List (String × List ClientRef)} {c : ClientRef}
    {p : String × List ClientRef} (h : p ∈ unregRooms rs c) :
    p.1 ∈ rs.map Prod.fst := by
  induction rs with
  | nil => cases h
  | cons q rest ih =>
      obtain ⟨k, ms⟩ := q
      simp only [unregRooms, List.filterMap_cons] at h
      by_cases hc : c ∈ ms
      · by_cases he : setRemove ms c = []
        · simp only [if_pos hc, if_pos he] at h
          exact List.mem_cons_of_mem _ (ih h)
        · simp only [if_pos hc, if_neg he] at h
          rcases List.mem_cons.mp h with h₁ | h₁
          · rw [h₁]
            exact List.mem_cons_self _ _
          · exact List.mem_cons_of_mem _ (ih h₁)
      · simp only [if_neg hc] at h
        rcases List.mem_cons.mp h with h₁ | h₁
        · rw [h₁]
          exact List.mem_cons_self _ _
        · exact List.mem_cons_of_mem _ (ih h₁)

theorem keys_unregRooms_sublist (rs : List (String × List ClientRef))
    (c : ClientRef) :
    ((unregRooms rs c).map Prod.fst).Sublist (rs.map Prod.fst) := by
  induction rs with
  | nil => simp [unregRooms]
  | cons q rest ih =>
      obtain ⟨k, ms⟩ := q
      simp only [unregRooms, List.filterMap_cons] at *
      by_cases hc : c ∈ ms
      · by_cases he : setRemove ms c = []
        · simp only [if_pos hc, if_pos he]
          exact ih.cons k
        · simp only [if_pos hc, if_neg he, List.map_cons]
          exact ih.cons₂ k
      · simp only [if_neg hc, List.map_cons]
        exact ih.cons₂ k

theorem unregRooms_cons_in_nil {k : String} {ms : List ClientRef}
    {c : ClientRef} (rest : List (String × List ClientRef)) (hc : c ∈ ms)
    (he : setRemove ms c = []) :
    unregRooms ((k, ms) :: rest) c = unregRooms rest c := by
  simp [unregRooms, List.filterMap_cons, hc, he]

theorem unregRooms_cons_in_cons {k : String} {ms : List ClientRef}
    {c : ClientRef} (rest : List (String × List ClientRef)) (hc : c ∈ ms)
    (he : setRemove ms c ≠ []) :
    unregRooms ((k, ms) :: rest) c = (k, setRemove ms c) :: unregRooms rest c := by
  simp [unregRooms, List.filterMap_cons, hc, he]

theorem unregRooms_cons_notin {k : String} {ms : List ClientRef}
    {c : ClientRef} (rest : List (String × List ClientRef)) (hc : c ∉ ms) :
    unregRooms ((k, ms) :: rest) c = (k, ms) :: unregRooms rest c := by
  simp [unregRooms, List.filterMap_cons, hc]

theorem mem_unregRooms {rs : List (String × List ClientRef)} {c : ClientRef}
    {p : String × List ClientRef} (h : p ∈ unregRooms rs c) :
    ∃ ms₀, (p.1, ms₀) ∈ rs ∧
      ((c ∉ ms₀ ∧ p.2 = ms₀) ∨ (c ∈ ms₀ ∧ p.2 = setRemove ms₀ c ∧ p.2 ≠ [])) := by
  induction rs with
  | nil => cases h
  | cons q rest ih =>
      obtain ⟨k, ms⟩ := q
      by_cases hc : c ∈ ms
      · by_cases he : setRemove ms c = []
        · rw [unregRooms_cons_in_nil rest hc he] at h
          rcases ih h with ⟨ms₀, hmem, hsh⟩
          exact ⟨ms₀, List.mem_cons_of_mem _ hmem, hsh⟩
        · rw [unregRooms_cons_in_cons rest hc he] at h
          rcases List.mem_cons.mp h with h₁ | h₁
          · refine ⟨ms, ?_, Or.inr ⟨hc, ?_, ?_⟩⟩
            · rw [h₁]
              exact List.mem_cons_self _ _
            · rw [h₁]
            · rw [h₁]
              exact he
          · rcases ih h₁ with ⟨ms₀, hmem, hsh⟩
            exact ⟨ms₀, List.mem_cons_of_mem _ hmem, hsh⟩
      · rw [unregRooms_cons_notin rest hc] at h
        rcases List.mem_cons.mp h with h₁ | h₁
        · refine ⟨ms, ?_, Or.inl ⟨hc, by rw [h₁]⟩⟩
          rw [h₁]
          exact List.mem_cons_self _ _
        · rcases ih h₁ with ⟨ms₀, hmem, hsh⟩
          exact ⟨ms₀, List.mem_cons_of_mem _ hmem, hsh⟩

theorem alGet_unregRooms {rs : List (String × List ClientRef)}
    (hnd : (rs.map Prod.fst).Nodup) (c : ClientRef) (room : String) :
    alGet (unregRooms rs c) room =
      match alGet rs room with
      | none => none
      | some ms =>
          if c ∈ ms then
            (if setRemove ms c = [] then none else some (setRemove ms c))
          else some ms := by
  induction rs with
  | nil => rfl
  | cons q rest ih =>
      obtain ⟨k, ms⟩ := q
      simp only [List.map_cons, List.nodup_cons] at hnd
      by_cases hk : k = room
      · subst hk
        rw [show alGet ((k, ms) :: rest) k = some ms from by simp [alGet]]
        have hnone : alGet (unregRooms rest c) k = none := by
          rw [alGet_eq_none_iff]
          intro v hv
          exact hnd.1 (mem_unregRooms_key hv)
        by_cases hc : c ∈ ms
        · by_cases he : setRemove ms c = []
          · rw [unregRooms_cons_in_nil rest hc he, hnone]
            simp [hc, he]
          · rw [unregRooms_cons_in_cons rest hc he]
            simp [alGet, hc, he]
        · rw [unregRooms_cons_notin rest hc]
          simp [alGet, hc]
      · rw [show alGet ((k, ms) :: rest) room = alGet rest room from by simp [alGet, hk]]
        by_cases hc : c ∈ ms
        · by_cases he : setRemove ms c = []
          · rw [unregRooms_cons_in_nil rest hc he]
            exact ih hnd.2
          · rw [unregRooms_cons_in_cons rest hc he]
            rw [show alGet ((k, setRemove ms c) :: unregRooms rest c) room
              = alGet (unregRooms rest c) room from by simp [alGet, hk]]
            exact ih hnd.2
        · rw [unregRooms_cons_notin rest hc]
          rw [show alGet ((k, ms) :: unregRooms rest c) room
            = alGet (unregRooms rest c) room from by simp [alGet, hk]]
          exact ih hnd.2

/-! ## Hub operation projections -/

/-- The client object allocated by NewClient. -/
def clientObjOf (st : HubState) (userId : String) : ClientObj :=
  { id := toString st.nextRef, userId := userId, send := []
    sendCap := sendQueueCap, closes := 0, rooms := [] }

theorem NewClient_ref (st : HubState) (userId : String) :
    (NewClient st userId).2 = st.nextRef := rfl

theorem NewClient_nextRef (st : HubState) (userId : String) :
    (NewClient st userId).1.nextRef = st.nextRef + 1 := rfl

theorem NewClient_clients (st : HubState) (userId : String) :
    (NewClient st userId).1.clients = st.clients := rfl

theorem NewClient_rooms (st : HubState) (userId : String) :
    (NewClient st userId).1.rooms = st.rooms := rfl

theorem NewClient_store_self (st : HubState) (userId : String) :
    (NewClient st userId).1.store st.nextRef = some (clientObjOf st userId) := by
  simp [NewClient, clientObjOf]

theorem NewClient_store_ne (st : HubState) (userId : String) {x : ClientRef}
    (h : x ≠ st.nextRef) : (NewClient st userId).1.store x = st.store x := by
  simp [NewClient, h]

theorem registerClient_clients (st : HubState) (c : ClientRef) :
    (registerClient st c).clients = setInsert st.clients c := rfl

theorem registerClient_rooms (st : HubState) (c : ClientRef) :
    (registerClient st c).rooms = st.rooms := rfl

theorem registerClient_store (st : HubState) (c : ClientRef) :
    (registerClient st c).store = st.store := rfl

theorem registerClient_nextRef (st : HubState) (c : ClientRef) :
    (registerClient st c).nextRef = st.nextRef := rfl

theorem unregisterClient_eq_of_notmem {st : HubState} {c : ClientRef}
    (hc : c ∉ st.clients) : unregisterClient st c = st := by
  simp [unregisterClient, hc]

theorem unregisterClient_clients {st : HubState} {c : ClientRef}
    (hc : c ∈ st.clients) :
    (unregisterClient st c).clients = setRemove st.clients c := by
  simp [unregisterClient, hc]

theorem unregisterClient_rooms {st : HubState} {c : ClientRef}
    (hc : c ∈ st.clients) :
    (unregisterClient st c).rooms = unregRooms st.rooms c := by
  simp [unregisterClient, hc]

theorem unregisterClient_store {st : HubState} {c : ClientRef}
    (hc : c ∈ st.clients) :
    (unregisterClient st c).store =
      updObj st.store c (fun o => { o with closes := o.closes + 1 }) := by
  simp [unregisterClient, hc]

theorem unregisterClient_nextRef (st : HubState) (c : ClientRef) :
    (unregisterClient st c).nextRef = st.nextRef := by
  by_cases hc : c ∈ st.clients <;> simp [unregisterClient, hc]

theorem addClientToRoom_clients (st : HubState) (c : ClientRef) (room : String) :
    (addClientToRoom st c room).clients = st.clients := rfl

theorem addClientToRoom_nextRef (st : HubState) (c : ClientRef) (room : String) :
    (addClientToRoom st c room).nextRef = st.nextRef := rfl

theorem addClientToRoom_rooms (st : HubState) (c : ClientRef) (room : String) :
    (addClientToRoom st c room).rooms =
      alSet st.rooms room (setInsert ((alGet st.rooms room).getD []) c) := rfl

theorem addClientToRoom_store (st : HubState) (c : ClientRef) (room : String) :
    (addClientToRoom st c room).store =
      updObj st.store c (fun o => { o with rooms := setInsert o.rooms room }) := rfl

theorem removeClientFromRoom_eq_of_none {st : HubState} {c : ClientRef}
    {room : String} (hg : alGet st.rooms room = none) :
    removeClientFromRoom st c room = st := by
  simp [removeClientFromRoom, hg]

theorem removeClientFromRoom_clients (st : HubState) (c : ClientRef)
    (room : String) : (removeClientFromRoom st c room).clients = st.clients := by
  unfold removeClientFromRoom
  cases alGet st.rooms room <;> rfl

theorem removeClientFromRoom_nextRef (st : HubState) (c : ClientRef)
    (room : String) : (removeClientFromRoom st c room).nextRef = st.nextRef := by
  unfold removeClientFromRoom
  cases alGet st.rooms room <;> rfl

theorem removeClientFromRoom_rooms {st : HubState} (c : ClientRef)
    {room : String} {ms : List ClientRef} (hg : alGet st.rooms room = some ms) :
    (removeClientFromRoom st c room).rooms =
      if setRemove ms c = [] then alDel st.rooms room
      else alSet st.rooms room (setRemove ms c) := by
  simp [removeClientFromRoom, hg]

theorem removeClientFromRoom_store {st : HubState} (c : ClientRef)
    {room : String} {ms : List ClientRef} (hg : alGet st.rooms room = some ms) :
    (removeClientFromRoom st c room).store =
      updObj st.store c (fun o => { o with rooms := setRemove o.rooms room }) := by
  simp [removeClientFromRoom, hg]

theorem broadcastMessage_clients (st : HubState) (m : Message) :
    (broadcastMessage st m).clients = st.clients := by
  unfold broadcastMessage Message.Encode
  by_cases h : m.room = ""
  · simp [h]
  · simp only [h]
    cases alGet st.rooms m.room <;> simp [h]

theorem broadcastMessage_rooms (st : HubState) (m : Message) :
    (broadcastMessage st m).rooms = st.rooms := by
  unfold broadcastMessage Message.Encode
  by_cases h : m.room = ""
  · simp [h]
  · simp only [h]
    cases alGet st.rooms m.room <;> simp [h]

theorem broadcastMessage_nextRef (st : HubState) (m : Message) :
    (broadcastMessage st m).nextRef = st.nextRef := by
  unfold broadcastMessage Message.Encode
  by_cases h : m.room = ""
  · simp [h]
  · simp only [h]
    cases alGet st.rooms m.room <;> simp [h]

theorem broadcastMessage_store_all {st : HubState} {m : Message}
    (h : m.room = "") :
    (broadcastMessage st m).store = hubDeliver st.store m st.clients := by
  simp [broadcastMessage, Message.Encode, h]

theorem broadcastMessage_store_room {st : HubState} {m : Message}
    (h : m.room ≠ "") {ms : List ClientRef}
    (hg : alGet st.rooms m.room = some ms) :
    (broadcastMessage st m).store = hubDeliver st.store m ms := by
  simp [broadcastMessage, Message.Encode, h, hg]

theorem broadcastMessage_eq_of_none {st : HubState} {m : Message}
    (h : m.room ≠ "") (hg : alGet st.rooms m.room = none) :
    broadcastMessage st m = st := by
  simp [broadcastMessage, Message.Encode, h, hg]

/-! ## The hub well-formedness invariant -/

/-- Membership of a client in a room of the hub registry. -/
def memberOf (rooms : List (String × List ClientRef)) (room : String)
    (c : ClientRef) : Prop :=
  ∃ ms, alGet rooms room = some ms ∧ c ∈ ms

/-- Bidirectional room-membership consistency: a tracked session is in a
room's member set exactly when the room is in the session's own room set. -/
def Bidir (st : HubState) : Prop :=
  ∀ c ∈ st.clients, ∀ o, st.store c = some o →
    ∀ room, memberOf st.rooms room c ↔ room ∈ o.rooms

/-- Invariant of the hub registries and store. -/
structure HubWF (st : HubState) : Prop where
  freshNone : ∀ x, st.nextRef ≤ x → st.store x = none
  clientsNodup : st.clients.Nodup
  clientsStored : ∀ c ∈ st.clients, (st.store c).isSome
  roomKeysNodup : (st.rooms.map Prod.fst).Nodup
  membersNodup : ∀ p ∈ st.rooms, p.2.Nodup
  membersNonempty : ∀ p ∈ st.rooms, p.2 ≠ []
  membersStored : ∀ p ∈ st.rooms, ∀ c ∈ p.2, (st.store c).isSome
  bidir : Bidir st
  capBound : ∀ c o, st.store c = some o → o.send.length ≤ o.sendCap

theorem hubWF_new : HubWF NewHub := by
  refine ⟨fun x _ => rfl, List.nodup_nil, ?_, ?_, ?_, ?_, ?_, ?_, ?_⟩
  · intro c hc; cases hc
  · simp [NewHub]
  · intro p hp; cases hp
  · intro p hp; cases hp
  · intro p hp; cases hp
  · intro c hc; cases hc
  · intro c o h; cases h

theorem clientRef_lt_nextRef {st : HubState} (wf : HubWF st) {c : ClientRef}
    (h : (st.store c).isSome) : c < st.nextRef := by
  by_contra hge
  rw [wf.freshNone c (Nat.le_of_not_lt hge)] at h
  cases h

theorem hubWF_register {st : HubState} (wf : HubWF st) (userId : String) :
    HubWF (registerClient (NewClient st userId).1 (NewClient st userId).2) := by
  have hfresh : st.store st.nextRef = none := wf.freshNone st.nextRef (le_refl _)
  have hnotcl : st.nextRef ∉ st.clients := by
    intro hmem
    have := clientRef_lt_nextRef wf (wf.clientsStored _ hmem)
    exact absurd this (Nat.lt_irrefl _)
  constructor
  · intro x hx
    rw [registerClient_nextRef, NewClient_nextRef] at hx
    rw [registerClient_store]
    have hxne : x ≠ st.nextRef := by omega
    have hxle : st.nextRef ≤ x := by omega
    rw [NewClient_store_ne st userId hxne]
    exact wf.freshNone x hxle
  · rw [registerClient_clients, NewClient_clients, NewClient_ref]
    exact nodup_setInsert _ wf.clientsNodup
  · intro c hc
    rw [registerClient_clients, NewClient_clients, NewClient_ref] at hc
    rw [registerClient_store]
    rcases mem_setInsert.mp hc with rfl | hc'
    · rw [NewClient_store_self]
      rfl
    · have hlt := clientRef_lt_nextRef wf (wf.clientsStored _ hc')
      have hcne : c ≠ st.nextRef := Nat.ne_of_lt hlt
      rw [NewClient_store_ne st userId hcne]
      exact wf.clientsStored _ hc'
  · rw [registerClient_rooms, NewClient_rooms]
    exact wf.roomKeysNodup
  · intro p hp
    rw [registerClient_rooms, NewClient_rooms] at hp
    exact wf.membersNodup p hp
  · intro p hp
    rw [registerClient_rooms, NewClient_rooms] at hp
    exact wf.membersNonempty p hp
  · intro p hp c hc
    rw [registerClient_rooms, NewClient_rooms] at hp
    rw [registerClient_store]
    have hlt := clientRef_lt_nextRef wf (wf.membersStored p hp c hc)
    have hcne : c ≠ st.nextRef := Nat.ne_of_lt hlt
    rw [NewClient_store_ne st userId hcne]
    exact wf.membersStored p hp c hc
  · intro c hc o ho room
    rw [registerClient_clients, NewClient_clients, NewClient_ref] at hc
    rw [registerClient_store] at ho
    rw [registerClient_rooms, NewClient_rooms]
    rcases mem_setInsert.mp hc with rfl | hc'
    · rw [NewClient_store_self] at ho
      have hoo : o = clientObjOf st userId := (Option.some.inj ho).symm
      rw [hoo]
      constructor
      · rintro ⟨ms, hg, hmem⟩
        have := clientRef_lt_nextRef wf
          (wf.membersStored _ (mem_of_alGet hg) _ hmem)
        exact absurd this (Nat.lt_irrefl _)
      · intro hmem
        simp [clientObjOf] at hmem
    · have hlt := clientRef_lt_nextRef wf (wf.clientsStored _ hc')
      have hcne : c ≠ st.nextRef := Nat.ne_of_lt hlt
      rw [NewClient_store_ne st userId hcne] at ho
      exact wf.bidir c hc' o ho room
  · intro c o ho
    rw [registerClient_store] at ho
    by_cases hc : c = st.nextRef
    · subst hc
      rw [NewClient_store_self] at ho
      have hoo : o = clientObjOf st userId := (Option.some.inj ho).symm
      rw [hoo]
      simp [clientObjOf]
    · rw [NewClient_store_ne st userId hc] at ho
      exact wf.capBound c o ho

theorem alGet_unregRooms_none {rs : List (String × List ClientRef)}
    (hnd : (rs.map Prod.fst).Nodup) (c : ClientRef) {room : String}
    (hg : alGet rs room = none) : alGet (unregRooms rs c) room = none := by
  rw [alGet_unregRooms hnd c room, hg]

theorem alGet_unregRooms_some {rs : List (String × List ClientRef)}
    (hnd : (rs.map Prod.fst).Nodup) (c : ClientRef) {room : String}
    {ms : List ClientRef} (hg : alGet rs room = some ms) :
    alGet (unregRooms rs c) room =
      if c ∈ ms then
        (if setRemove ms c = [] then none else some (setRemove ms c))
      else some ms := by
  rw [alGet_unregRooms hnd c room, hg]

theorem memberOf_unregRooms_iff {st : HubState} (wf : HubWF st)
    {c s : ClientRef} (hne : s ≠ c) (room : String) :
    memberOf (unregRooms st.rooms c) room s ↔ memberOf st.rooms room s := by
  unfold memberOf
  rw [alGet_unregRooms wf.roomKeysNodup]
  cases hg : alGet st.rooms room with
  | none => simp
  | some ms =>
      by_cases hc : c ∈ ms
      · by_cases he : setRemove ms c = []
        · simp only [hc, if_pos hc, he, if_pos he]
          constructor
          · rintro ⟨ms', hms', _⟩
            cases hms'
          · rintro ⟨ms', hms', hsmem⟩
            have hms : ms' = ms := Option.some.inj hms'.symm
            rw [hms] at hsmem
            have : s ∈ setRemove ms c := mem_setRemove.mpr ⟨hsmem, hne⟩
            rw [he] at this
            cases this
        · simp only [if_pos hc, if_neg he]
          constructor
          · rintro ⟨ms', hms', hsmem⟩
            have hms : ms' = setRemove ms c := Option.some.inj hms'.symm
            rw [hms] at hsmem
            exact ⟨ms, rfl, (mem_setRemove.mp hsmem).1⟩
          · rintro ⟨ms', hms', hsmem⟩
            have hms : ms' = ms := Option.some.inj hms'.symm
            rw [hms] at hsmem
            exact ⟨setRemove ms c, rfl, mem_setRemove.mpr ⟨hsmem, hne⟩⟩
      · simp only [if_neg hc]

theorem hubWF_unregister {st : HubState} (wf : HubWF st) (c : ClientRef) :
    HubWF (unregisterClient st c) := by
  by_cases hc : c ∈ st.clients
  · have hlt := clientRef_lt_nextRef wf (wf.clientsStored _ hc)
    constructor
    · intro x hx
      rw [unregisterClient_nextRef] at hx
      rw [unregisterClient_store hc]
      have hxc : x ≠ c := fun he =>
        Nat.lt_irrefl _ (Nat.lt_of_lt_of_le hlt (he ▸ hx))
      rw [updObj_ne st.store c _ hxc]
      exact wf.freshNone x hx
    · rw [unregisterClient_clients hc]
      exact nodup_setRemove c wf.clientsNodup
    · intro c' hc'
      rw [unregisterClient_clients hc] at hc'
      rw [unregisterClient_store hc, updObj_isSome]
      exact wf.clientsStored _ (mem_setRemove.mp hc').1
    · rw [unregisterClient_rooms hc]
      exact wf.roomKeysNodup.sublist (keys_unregRooms_sublist st.rooms c)
    · intro p hp
      rw [unregisterClient_rooms hc] at hp
      rcases mem_unregRooms hp with ⟨ms₀, hmem, hsh⟩
      rcases hsh with ⟨_, heq⟩ | ⟨_, heq, _⟩
      · rw [heq]
        exact wf.membersNodup _ hmem
      · rw [heq]
        exact nodup_setRemove c (wf.membersNodup _ hmem)
    · intro p hp
      rw [unregisterClient_rooms hc] at hp
      rcases mem_unregRooms hp with ⟨ms₀, hmem, hsh⟩
      rcases hsh with ⟨_, heq⟩ | ⟨_, _, hne⟩
      · rw [heq]
        exact wf.membersNonempty _ hmem
      · exact hne
    · intro p hp c' hcm
      rw [unregisterClient_rooms hc] at hp
      rw [unregisterClient_store hc, updObj_isSome]
      rcases mem_unregRooms hp with ⟨ms₀, hmem, hsh⟩
      rcases hsh with ⟨_, heq⟩ | ⟨_, heq, _⟩
      · rw [heq] at hcm
        exact wf.membersStored _ hmem _ hcm
      · rw [heq] at hcm
        exact wf.membersStored _ hmem _ (mem_setRemove.mp hcm).1
    · intro s hs o ho room
      rw [unregisterClient_clients hc] at hs
      have hsc := mem_setRemove.mp hs
      rw [unregisterClient_store hc, updObj_ne st.store c _ hsc.2] at ho
      rw [unregisterClient_rooms hc]
      rw [memberOf_unregRooms_iff wf hsc.2 room]
      exact wf.bidir s hsc.1 o ho room
    · intro x o ho
      rw [unregisterClient_store hc] at ho
      by_cases hxc : x = c
      · subst hxc
        rw [updObj_self] at ho
        cases hsx : st.store x with
        | none => rw [hsx] at ho; cases ho
        | some o₀ =>
            rw [hsx] at ho
            have hoo : { o₀ with closes := o₀.closes + 1 } = o := Option.some.inj ho
            rw [← hoo]
            exact wf.capBound x o₀ hsx
      · rw [updObj_ne st.store c _ hxc] at ho
        exact wf.capBound x o ho
  · rw [unregisterClient_eq_of_notmem hc]
    exact wf

theorem hubWF_join {st : HubState} (wf : HubWF st) {c : ClientRef}
    (hsome : (st.store c).isSome) (room : String) :
    HubWF (addClientToRoom st c room) := by
  have hlt := clientRef_lt_nextRef wf hsome
  obtain ⟨o₀, ho₀⟩ := Option.isSome_iff_exists.mp hsome
  constructor
  · intro x hx
    rw [addClientToRoom_nextRef] at hx
    rw [addClientToRoom_store]
    have hxc : x ≠ c := fun he =>
      Nat.lt_irrefl _ (Nat.lt_of_lt_of_le hlt (he ▸ hx))
    rw [updObj_ne st.store c _ hxc]
    exact wf.freshNone x hx
  · rw [addClientToRoom_clients]
    exact wf.clientsNodup
  · intro c' hc'
    rw [addClientToRoom_clients] at hc'
    rw [addClientToRoom_store, updObj_isSome]
    exact wf.clientsStored _ hc'
  · rw [addClientToRoom_rooms]
    exact keysNodup_alSet room _ wf.roomKeysNodup
  · intro p hp
    rw [addClientToRoom_rooms] at hp
    rcases List.mem_cons.mp hp with h₁ | h₁
    · rw [h₁]
      cases hg : alGet st.rooms room with
      | none => simp [hg, setInsert]
      | some ms =>
          simp only [hg, Option.getD_some]
          exact nodup_setInsert c (wf.membersNodup _ (mem_of_alGet hg))
    · exact wf.membersNodup _ (mem_alDel h₁).1
  · intro p hp
    rw [addClientToRoom_rooms] at hp
    rcases List.mem_cons.mp hp with h₁ | h₁
    · rw [h₁]
      simp only []
      unfold setInsert
      by_cases hcm : c ∈ (alGet st.rooms room).getD []
      · rw [if_pos hcm]
        intro hnil
        rw [hnil] at hcm
        cases hcm
      · rw [if_neg hcm]
        intro hnil
        cases hnil
    · exact wf.membersNonempty _ (mem_alDel h₁).1
  · intro p hp c' hcm
    rw [addClientToRoom_rooms] at hp
    rw [addClientToRoom_store, updObj_isSome]
    rcases List.mem_cons.mp hp with h₁ | h₁
    · rw [h₁] at hcm
      rcases mem_setInsert.mp hcm with rfl | hcm'
      · exact hsome
      · cases hg : alGet st.rooms room with
        | none => rw [hg] at hcm'; cases hcm'
        | some ms =>
            rw [hg] at hcm'
            exact wf.membersStored _ (mem_of_alGet hg) _ hcm'
    · exact wf.membersStored _ (mem_alDel h₁).1 _ hcm
  · intro s hs o ho room'
    rw [addClientToRoom_clients] at hs
    rw [addClientToRoom_store] at ho
    rw [addClientToRoom_rooms]
    by_cases hsc : s = c
    · subst hsc
      rw [updObj_self, ho₀] at ho
      have hoo : { o₀ with rooms := setInsert o₀.rooms room } = o :=
        Option.some.inj ho
      rw [← hoo]
      by_cases hr : room' = room
      · subst hr
        constructor
        · intro _
          simp [mem_setInsert]
        · intro _
          refine ⟨setInsert ((alGet st.rooms room').getD []) s, ?_, ?_⟩
          · exact alGet_alSet_self _ _ _
          · simp [mem_setInsert]
      · unfold memberOf
        rw [alGet_alSet_ne _ _ hr]
        have hbase := wf.bidir s hs o₀ ho₀ room'
        unfold memberOf at hbase
        rw [hbase]
        simp only []
        constructor
        · intro h
          exact mem_setInsert.mpr (Or.inr h)
        · intro h
          rcases mem_setInsert.mp h with h₁ | h₁
          · exact absurd h₁ hr
          · exact h₁
    · rw [updObj_ne st.store c _ hsc] at ho
      have hbase := wf.bidir s hs o ho room'
      by_cases hr : room' = room
      · subst hr
        unfold memberOf
        rw [alGet_alSet_self]
        unfold memberOf at hbase
        rw [← hbase]
        constructor
        · rintro ⟨ms', hms', hsmem⟩
          have hms : ms' = setInsert ((alGet st.rooms room').getD []) c :=
            Option.some.inj hms'.symm
          rw [hms] at hsmem
          rcases mem_setInsert.mp hsmem with h₁ | h₁
          · exact absurd h₁ hsc
          · cases hg : alGet st.rooms room' with
            | none => rw [hg] at h₁; cases h₁
            | some ms =>
                rw [hg] at h₁
                exact ⟨ms, rfl, h₁⟩
        · rintro ⟨ms, hms, hsmem⟩
          refine ⟨setInsert ((alGet st.rooms room').getD []) c, rfl, ?_⟩
          rw [hms]
          exact mem_setInsert.mpr (Or.inr hsmem)
      · unfold memberOf
        rw [alGet_alSet_ne _ _ hr]
        exact hbase
  · intro x o ho
    rw [addClientToRoom_store] at ho
    by_cases hxc : x = c
    · subst hxc
      rw [updObj_self, ho₀] at ho
      have hoo : { o₀ with rooms := setInsert o₀.rooms room } = o :=
        Option.some.inj ho
      rw [← hoo]
      exact wf.capBound x o₀ ho₀
    · rw [updObj_ne st.store c _ hxc] at ho
      exact wf.capBound x o ho

theorem hubWF_leave {st : HubState} (wf : HubWF st) {c : ClientRef}
    (hsome : (st.store c).isSome) (room : String) :
    HubWF (removeClientFromRoom st c room) := by
  cases hg : alGet st.rooms room with
  | none =>
      rw [removeClientFromRoom_eq_of_none hg]
      exact wf
  | some ms =>
      have hlt := clientRef_lt_nextRef wf hsome
      obtain ⟨o₀, ho₀⟩ := Option.isSome_iff_exists.mp hsome
      have hroomsmem : (room, ms) ∈ st.rooms := mem_of_alGet hg
      constructor
      · intro x hx
        rw [removeClientFromRoom_nextRef] at hx
        rw [removeClientFromRoom_store c hg]
        have hxc : x ≠ c := fun he =>
          Nat.lt_irrefl _ (Nat.lt_of_lt_of_le hlt (he ▸ hx))
        rw [updObj_ne st.store c _ hxc]
        exact wf.freshNone x hx
      · rw [removeClientFromRoom_clients]
        exact wf.clientsNodup
      · intro c' hc'
        rw [removeClientFromRoom_clients] at hc'
        rw [removeClientFromRoom_store c hg, updObj_isSome]
        exact wf.clientsStored _ hc'
      · rw [removeClientFromRoom_rooms c hg]
        by_cases he : setRemove ms c = []
        · rw [if_pos he]
          exact keysNodup_alDel room wf.roomKeysNodup
        · rw [if_neg he]
          exact keysNodup_alSet room _ wf.roomKeysNodup
      · intro p hp
        rw [removeClientFromRoom_rooms c hg] at hp
        by_cases he : setRemove ms c = []
        · rw [if_pos he] at hp
          exact wf.membersNodup _ (mem_alDel hp).1
        · rw [if_neg he] at hp
          rcases List.mem_cons.mp hp with h₁ | h₁
          · rw [h₁]
            exact nodup_setRemove c (wf.membersNodup _ hroomsmem)
          · exact wf.membersNodup _ (mem_alDel h₁).1
      · intro p hp
        rw [removeClientFromRoom_rooms c hg] at hp
        by_cases he : setRemove ms c = []
        · rw [if_pos he] at hp
          exact wf.membersNonempty _ (mem_alDel hp).1
        · rw [if_neg he] at hp
          rcases List.mem_cons.mp hp with h₁ | h₁
          · rw [h₁]
            exact he
          · exact wf.membersNonempty _ (mem_alDel h₁).1
      · intro p hp c' hcm
        rw [removeClientFromRoom_rooms c hg] at hp
        rw [removeClientFromRoom_store c hg, updObj_isSome]
        by_cases he : setRemove ms c = []
        · rw [if_pos he] at hp
          exact wf.membersStored _ (mem_alDel hp).1 _ hcm
        · rw [if_neg he] at hp
          rcases List.mem_cons.mp hp with h₁ | h₁
          · rw [h₁] at hcm
            exact wf.membersStored _ hroomsmem _ (mem_setRemove.mp hcm).1
          · exact wf.membersStored _ (mem_alDel h₁).1 _ hcm
      · intro s hs o ho room'
        rw [removeClientFromRoom_clients] at hs
        rw [removeClientFromRoom_store c hg] at ho
        rw [removeClientFromRoom_rooms c hg]
        by_cases hsc : s = c
        · subst hsc
          rw [updObj_self, ho₀] at ho
          have hoo : { o₀ with rooms := setRemove o₀.rooms room } = o :=
            Option.some.inj ho
          rw [← hoo]
          by_cases hr : room' = room
          · subst hr
            constructor
            · rintro ⟨ms', hms', hsmem⟩
              by_cases he : setRemove ms s = []
              · rw [if_pos he, alGet_alDel_self] at hms'
                cases hms'
              · rw [if_neg he, alGet_alSet_self] at hms'
                have hms : ms' = setRemove ms s := Option.some.inj hms'.symm
                rw [hms] at hsmem
                exact absurd rfl (mem_setRemove.mp hsmem).2
            · intro hmem
              exact absurd rfl (mem_setRemove.mp hmem).2
          · unfold memberOf
            have halget : alGet (if setRemove ms s = [] then alDel st.rooms room
                else alSet st.rooms room (setRemove ms s)) room' = alGet st.rooms room' := by
              by_cases he : setRemove ms s = []
              · rw [if_pos he]
                exact alGet_alDel_ne st.rooms hr
              · rw [if_neg he]
                exact alGet_alSet_ne _ _ hr
            rw [halget]
            have hbase := wf.bidir s hs o₀ ho₀ room'
            unfold memberOf at hbase
            rw [hbase]
            simp only []
            constructor
            · intro h
              exact mem_setRemove.mpr ⟨h, hr⟩
            · intro h
              exact (mem_setRemove.mp h).1
        · rw [updObj_ne st.store c _ hsc] at ho
          have hbase := wf.bidir s hs o ho room'
          by_cases hr : room' = room
          · subst hr
            have hnotin : s ∉ ms → (memberOf st.rooms room' s ↔ False) := by
              intro hn
              unfold memberOf
              simp only [hg]
              constructor
              · rintro ⟨ms', hms', hsmem⟩
                have hms : ms' = ms := Option.some.inj hms'.symm
                rw [hms] at hsmem
                exact hn hsmem
              · intro h
                cases h
            unfold memberOf
            by_cases he : setRemove ms c = []
            · rw [if_pos he, alGet_alDel_self]
              have hsn : s ∉ ms := by
                intro hsm
                have : s ∈ setRemove ms c := mem_setRemove.mpr ⟨hsm, hsc⟩
                rw [he] at this
                cases this
              unfold memberOf at hbase
              rw [← hbase]
              simp only [hg]
              constructor
              · rintro ⟨ms', hms', _⟩
                cases hms'
              · rintro ⟨ms', hms', hsmem⟩
                have hms : ms' = ms := Option.some.inj hms'.symm
                rw [hms] at hsmem
                exact absurd hsmem hsn
            · rw [if_neg he, alGet_alSet_self]
              unfold memberOf at hbase
              rw [← hbase]
              simp only [hg]
              constructor
              · rintro ⟨ms', hms', hsmem⟩
                have hms : ms' = setRemove ms c := Option.some.inj hms'.symm
                rw [hms] at hsmem
                exact ⟨ms, rfl, (mem_setRemove.mp hsmem).1⟩
              · rintro ⟨ms', hms', hsmem⟩
                have hms : ms' = ms := Option.some.inj hms'.symm
                rw [hms] at hsmem
                exact ⟨setRemove ms c, rfl, mem_setRemove.mpr ⟨hsmem, hsc⟩⟩
          · unfold memberOf
            have halget : alGet (if setRemove ms c = [] then alDel st.rooms room
                else alSet st.rooms room (setRemove ms c)) room' = alGet st.rooms room' := by
              by_cases he : setRemove ms c = []
              · rw [if_pos he]
                exact alGet_alDel_ne st.rooms hr
              · rw [if_neg he]
                exact alGet_alSet_ne _ _ hr
            rw [halget]
            exact hbase
      · intro x o ho
        rw [removeClientFromRoom_store c hg] at ho
        by_cases hxc : x = c
        · subst hxc
          rw [updObj_self, ho₀] at ho
          have hoo : { o₀ with rooms := setRemove o₀.rooms room } = o :=
            Option.some.inj ho
          rw [← hoo]
          exact wf.capBound x o₀ ho₀
        · rw [updObj_ne st.store c _ hxc] at ho
          exact wf.capBound x o ho

theorem hubWF_of_deliver {st st' : HubState} (wf : HubWF st) (d : Message)
    (l : List ClientRef) (hcl : st'.clients = st.clients)
    (hro : st'.rooms = st.rooms) (hnx : st'.nextRef = st.nextRef)
    (hst : st'.store = hubDeliver st.store d l) : HubWF st' := by
  constructor
  · intro x hx
    rw [hnx] at hx
    rw [hst]
    exact (hubDeliver_store_spec d l st.store x).1 (wf.freshNone x hx)
  · rw [hcl]
    exact wf.clientsNodup
  · intro c hc
    rw [hcl] at hc
    rw [hst]
    obtain ⟨o, ho⟩ := Option.isSome_iff_exists.mp (wf.clientsStored _ hc)
    rcases (hubDeliver_store_spec d l st.store c).2 o ho with ⟨o', hget, _⟩
    rw [hget]
    rfl
  · rw [hro]
    exact wf.roomKeysNodup
  · intro p hp
    rw [hro] at hp
    exact wf.membersNodup p hp
  · intro p hp
    rw [hro] at hp
    exact wf.membersNonempty p hp
  · intro p hp c hc
    rw [hro] at hp
    rw [hst]
    obtain ⟨o, ho⟩ := Option.isSome_iff_exists.mp (wf.membersStored p hp c hc)
    rcases (hubDeliver_store_spec d l st.store c).2 o ho with ⟨o', hget, _⟩
    rw [hget]
    rfl
  · intro s hs o' ho' room
    rw [hcl] at hs
    rw [hst] at ho'
    rw [hro]
    cases ho : st.store s with
    | none =>
        rw [(hubDeliver_store_spec d l st.store s).1 ho] at ho'
        cases ho'
    | some o =>
        rcases (hubDeliver_store_spec d l st.store s).2 o ho with ⟨o'', hget, honly⟩
        rw [hget] at ho'
        have hoo : o'' = o' := Option.some.inj ho'
        rw [← hoo, honly.2.2.2.2.1]
        exact wf.bidir s hs o ho room
  · intro x o' ho'
    rw [hst] at ho'
    cases ho : st.store x with
    | none =>
        rw [(hubDeliver_store_spec d l st.store x).1 ho] at ho'
        cases ho'
    | some o =>
        rcases (hubDeliver_store_spec d l st.store x).2 o ho with ⟨o'', hget, honly⟩
        rw [hget] at ho'
        have hoo : o'' = o' := Option.some.inj ho'
        rw [← hoo]
        exact honly.2.2.2.2.2 (wf.capBound x o ho)

theorem hubWF_bcast {st : HubState} (wf : HubWF st) (m : Message) :
    HubWF (broadcastMessage st m) := by
  by_cases h : m.room = ""
  · exact hubWF_of_deliver wf m st.clients (broadcastMessage_clients st m)
      (broadcastMessage_rooms st m) (broadcastMessage_nextRef st m)
      (broadcastMessage_store_all h)
  · cases hg : alGet st.rooms m.room with
    | none =>
        rw [broadcastMessage_eq_of_none h hg]
        exact wf
    | some ms =>
        exact hubWF_of_deliver wf m ms (broadcastMessage_clients st m)
          (broadcastMessage_rooms st m) (broadcastMessage_nextRef st m)
          (broadcastMessage_store_room h hg)

theorem hubWF_reachable {st : HubState} (h : HubReach st) : HubWF st := by
  induction h with
  | init => exact hubWF_new
  | register userId _ ih => exact hubWF_register ih userId
  | unregister c _ ih => exact hubWF_unregister ih c
  | join c room _ hsome ih => exact hubWF_join ih hsome room
  | leave c room _ hsome ih => exact hubWF_leave ih hsome room
  | bcast m _ ih => exact hubWF_bcast ih m

/-! ## Reference uniqueness inside one topic -/

theorem busWF_inner_snd_nodup {st : PubSubState} (wf : BusWF st)
    (topic : String) :
    (((alGet st.registry topic).getD []).map Prod.snd).Nodup := by
  cases hg : alGet st.registry topic with
  | none => simp
  | some subs =>
      simp only [Option.getD_some]
      have hmem : (topic, subs) ∈ st.registry := mem_of_alGet hg
      have hkeys := wf.innerKeysNodup _ hmem
      have hl : subs.Nodup := hkeys.of_map
      refine hl.map_on ?_
      intro q₁ hq₁ q₂ hq₂ hsnd
      rcases wf.entries _ hmem q₁ hq₁ with ⟨sub₁, hs₁, hid₁, _⟩
      rcases wf.entries _ hmem q₂ hq₂ with ⟨sub₂, hs₂, hid₂, _⟩
      have hsame : sub₁ = sub₂ := by
        rw [← hsnd] at hs₂
        exact Option.some.inj (hs₁.symm.trans hs₂)
      have hfst : q₁.1 = q₂.1 := by
        rw [← hid₁, ← hid₂, hsame]
      have := List.inj_on_of_nodup_map hkeys hq₁ hq₂ hfst
      exact this

/-! ## Claim theorems -/

/-- C1: delivery of an event to a full session outbound queue or full
subscriber queue is dropped for that recipient only: over all reachable
bus and hub states every queue stays within its configured bound, a
delivery to a full queue leaves that queue's object unchanged (the
try-send is a total function, so the call cannot block), and a recipient
of the same publish or broadcast whose own queue has room still receives
the event. -/
theorem claim_C1 :
    (∀ st, BusReach st → ∀ r sub, st.store r = some sub →
      sub.queue.length ≤ sub.cap) ∧
    (∀ st, HubReach st → ∀ c o, st.store c = some o →
      o.send.length ≤ o.sendCap) ∧
    (∀ st topic payload now i r sub, BusWF st →
      (i, r) ∈ (alGet st.registry topic).getD [] → st.store r = some sub →
      sub.cap ≤ sub.queue.length →
      (Publish st topic payload now).1.store r = some sub) ∧
    (∀ st topic payload now i r sub, BusWF st →
      (i, r) ∈ (alGet st.registry topic).getD [] → st.store r = some sub →
      sub.cancelled = false → sub.queue.length < sub.cap →
      (Publish st topic payload now).1.store r =
        some { sub with queue := sub.queue ++
          [{ topic := topic, payload := payload, timestamp := now }] }) ∧
    (∀ st m ms c o, HubWF st → m.room ≠ "" → alGet st.rooms m.room = some ms →
      c ∈ ms → st.store c = some o → o.sendCap ≤ o.send.length →
      (broadcastMessage st m).store c = some o) ∧
    (∀ st m ms c o, HubWF st → m.room ≠ "" → alGet st.rooms m.room = some ms →
      c ∈ ms → st.store c = some o → o.send.length < o.sendCap →
      (broadcastMessage st m).store c =
        some { o with send := o.send ++ [m] }) := by
  refine ⟨?_, ?_, ?_, ?_, ?_, ?_⟩
  · intro st hreach r sub hs
    exact (busWF_reachable hreach).capBound r sub hs
  · intro st hreach c o hs
    exact (hubWF_reachable hreach).capBound c o hs
  · intro st topic payload now i r sub wf hmem hs hfull
    rw [Publish_store]
    rw [busDeliver_get_mem _ (busWF_inner_snd_nodup wf topic) hmem]
    rw [hs]
    have hcond : ¬ (sub.cancelled = false ∧ sub.queue.length < sub.cap) := by
      rintro ⟨_, hlt⟩
      exact absurd hlt (Nat.not_lt_of_le hfull)
    exact if_neg hcond
  · intro st topic payload now i r sub wf hmem hs hact hroomq
    rw [Publish_store]
    rw [busDeliver_get_mem _ (busWF_inner_snd_nodup wf topic) hmem]
    rw [hs]
    exact if_pos ⟨hact, hroomq⟩
  · intro st m ms c o wf hne hg hmem hs hfull
    rw [broadcastMessage_store_room hne hg]
    rw [hubDeliver_get_mem _ (wf.membersNodup _ (mem_of_alGet hg)) hmem]
    rw [hs]
    rw [show (some o).map (fun o => trySend o m) = some (trySend o m) from rfl]
    unfold trySend
    rw [if_neg (Nat.not_lt_of_le hfull)]
  · intro st m ms c o wf hne hg hmem hs hroomq
    rw [broadcastMessage_store_room hne hg]
    rw [hubDeliver_get_mem _ (wf.membersNodup _ (mem_of_alGet hg)) hmem]
    rw [hs]
    rw [show (some o).map (fun o => trySend o m) = some (trySend o m) from rfl]
    unfold trySend
    rw [if_pos hroomq]

/-- Bus state with one subscriber of queue bound 1 whose queue is full. -/
def busFull : PubSubState :=
  (Publish (Subscribe (NewPubSub 1) "s1" ["a"]).1 "a" "x" 0).1

/-- The subscriber object of `busFull` after its queue filled. -/
def subFull : SubObj :=
  { id := "s1", topics := ["a"], queue := [{ topic := "a", payload := "x", timestamp := 0 }]
    cap := 1, closes := 0, cancelled := false }

theorem wit_C1 :
    BusReach busFull ∧
    ("s1", 0) ∈ (alGet busFull.registry "a").getD [] ∧
    busFull.store 0 = some subFull ∧
    subFull.cap ≤ subFull.queue.length ∧
    (Publish busFull "a" "y" 1).1.store 0 = some subFull := by
  have hreach : BusReach busFull :=
    BusReach.publish "a" "x" 0 (BusReach.subscribe "s1" ["a"] (BusReach.init 1))
  refine ⟨hreach, by decide, by decide, by decide, ?_⟩
  exact claim_C1.2.2.1 busFull "a" "y" 1 "s1" 0 subFull
    (busWF_reachable hreach) (by decide) (by decide) (by decide)

/-- C2: Publish delivers to exactly the current subscribers of the topic
whose scope is active and whose queue has room, and returns exactly the
number of them; cancelled or full subscribers are skipped and not
counted, a topic without subscribers yields 0, and the end-to-end
scenario holds: after subscribing "s1" to "a" and "b", `Publish "a"`
returns 1, `Publish "c"` returns 0, and after `Unsubscribe` of "s1",
`Publish "a"` returns 0. -/
theorem claim_C2 :
    (∀ st topic payload now, BusWF st →
      (Publish st topic payload now).2 =
        ((alGet st.registry topic).getD []).countP
          (fun q => deliverable st.store q.2)) ∧
    (∀ st topic payload now i r sub, BusWF st →
      (i, r) ∈ (alGet st.registry topic).getD [] → st.store r = some sub →
      sub.cancelled = false → sub.queue.length < sub.cap →
      (Publish st topic payload now).1.store r =
        some { sub with queue := sub.queue ++
          [{ topic := topic, payload := payload, timestamp := now }] }) ∧
    (∀ st topic payload now i r sub, BusWF st →
      (i, r) ∈ (alGet st.registry topic).getD [] → st.store r = some sub →
      sub.cancelled = true →
      (Publish st topic payload now).1.store r = some sub) ∧
    (∀ st topic payload now, alGet st.registry topic = none →
      (Publish st topic payload now).2 = 0) ∧
    (Publish (Subscribe (NewPubSub 4) "s1" ["a", "b"]).1 "a" "x" 0).2 = 1 ∧
    (Publish (Subscribe (NewPubSub 4) "s1" ["a", "b"]).1 "c" "x" 0).2 = 0 ∧
    (Publish (Unsubscribe (Subscribe (NewPubSub 4) "s1" ["a", "b"]).1
      (Subscribe (NewPubSub 4) "s1" ["a", "b"]).2) "a" "x" 0).2 = 0 := by
  refine ⟨?_, ?_, ?_, ?_, by decide, by decide, by decide⟩
  · intro st topic payload now wf
    rw [Publish_count]
    exact busDeliver_count _ (busWF_inner_snd_nodup wf topic) st.store
  · intro st topic payload now i r sub wf hmem hs hact hroomq
    rw [Publish_store]
    rw [busDeliver_get_mem _ (busWF_inner_snd_nodup wf topic) hmem]
    rw [hs]
    exact if_pos ⟨hact, hroomq⟩
  · intro st topic payload now i r sub wf hmem hs hcanc
    rw [Publish_store]
    rw [busDeliver_get_mem _ (busWF_inner_snd_nodup wf topic) hmem]
    rw [hs]
    have hcond : ¬ (sub.cancelled = false ∧ sub.queue.length < sub.cap) := by
      rintro ⟨hfalse, _⟩
      rw [hcanc] at hfalse
      cases hfalse
    exact if_neg hcond
  · intro st topic payload now hg
    rw [Publish_count, hg]
    rfl

/-- Bus state used to instantiate the C2 delivery-count theorem. -/
def busS : PubSubState := (Subscribe (NewPubSub 4) "s1" ["a", "b"]).1

theorem wit_C2 :
    BusWF busS ∧
    (Publish busS "a" "x" 0).2 =
      ((alGet busS.registry "a").getD []).countP
        (fun q => deliverable busS.store q.2) := by
  have hreach : BusReach busS :=
    BusReach.subscribe "s1" ["a", "b"] (BusReach.init 4)
  exact ⟨busWF_reachable hreach, claim_C2.1 busS "a" "x" 0 (busWF_reachable hreach)⟩

/-- C3: at every reachable (quiescent) hub state, a tracked session is in
a room's member set exactly when the room is in the session's own room
set, and each of the three mutating commands (join, leave, unregister)
preserves this bidirectional consistency from any well-formed state. -/
theorem claim_C3 :
    (∀ st, HubReach st → Bidir st) ∧
    (∀ st c room, HubWF st → (st.store c).isSome →
      Bidir (addClientToRoom st c room)) ∧
    (∀ st c room, HubWF st → (st.store c).isSome →
      Bidir (removeClientFromRoom st c room)) ∧
    (∀ st c, HubWF st → Bidir (unregisterClient st c)) := by
  refine ⟨?_, ?_, ?_, ?_⟩
  · intro st h
    exact (hubWF_reachable h).bidir
  · intro st c room wf hs
    exact (hubWF_join wf hs room).bidir
  · intro st c room wf hs
    exact (hubWF_leave wf hs room).bidir
  · intro st c wf
    exact (hubWF_unregister wf c).bidir

/-- Hub state with one registered client that joined room "chat". -/
def hubW : HubState :=
  addClientToRoom (registerClient (NewClient NewHub "u").1 0) 0 "chat"

theorem wit_C3 : HubReach hubW ∧ Bidir hubW := by
  have hreach : HubReach hubW := by
    refine HubReach.join 0 "chat" (HubReach.register "u" HubReach.init) ?_
    decide
  exact ⟨hreach, (hubWF_reachable hreach).bidir⟩

/-- C4 (amended): the first Unsubscribe of a subscriber closes its queue
exactly once and marks it cancelled; after an Unsubscribe the topic count
drops by exactly one for every topic of the subscriber on which its id is
still registered; after an Unsubscribe no registry entry references the
subscriber, a Publish on a registry without references to it never
touches its (closed) queue, and that unreferenced status is preserved by
later Subscribe, Unsubscribe and Publish calls.  (As stated, with a
second Unsubscribe allowed, the original claim is refuted by
`cex_C4`: the second call closes the already-closed queue again.) -/
theorem claim_C4 :
    (∀ st r sub, st.store r = some sub → sub.closes = 0 →
      (Unsubscribe st r).store r =
        some { sub with cancelled := true, closes := 1 }) ∧
    (∀ st r sub t, BusWF st → st.store r = some sub → t ∈ sub.topics →
      (alGet ((alGet st.registry t).getD []) sub.id).isSome →
      GetSubscriberCount (Unsubscribe st r) t + 1 = GetSubscriberCount st t) ∧
    (∀ st r sub, BusWF st → st.store r = some sub →
      ∀ p ∈ (Unsubscribe st r).registry, ∀ q ∈ p.2, q.2 ≠ r) ∧
    (∀ st r topic payload now, (∀ p ∈ st.registry, ∀ q ∈ p.2, q.2 ≠ r) →
      (Publish st topic payload now).1.store r = st.store r) ∧
    (∀ st r id topics, BusWF st → r < st.nextRef →
      (∀ p ∈ st.registry, ∀ q ∈ p.2, q.2 ≠ r) →
      ∀ p ∈ (Subscribe st id topics).1.registry, ∀ q ∈ p.2, q.2 ≠ r) ∧
    (∀ st r r', BusWF st → (∀ p ∈ st.registry, ∀ q ∈ p.2, q.2 ≠ r) →
      ∀ p ∈ (Unsubscribe st r').registry, ∀ q ∈ p.2, q.2 ≠ r) := by
  refine ⟨?_, ?_, ?_, ?_, ?_, ?_⟩
  · intro st r sub hs hcl
    rw [Unsubscribe_store_self hs, hcl]
  · intro st r sub t wf hs ht hreg
    unfold GetSubscriberCount
    rw [Unsubscribe_registry hs, fold_unsub_get_mem sub.id ht]
    cases hg : alGet st.registry t with
    | none =>
        rw [hg] at hreg
        simp [alGet] at hreg
    | some subs =>
        rw [hg] at hreg
        simp only [Option.getD_some] at hreg
        obtain ⟨r', hr'⟩ := Option.isSome_iff_exists.mp hreg
        have hnd := wf.innerKeysNodup _ (mem_of_alGet hg)
        have hlen := length_alDel_of_get_nodup hnd hr'
        rw [unsubSpec_some]
        by_cases he : alDel subs sub.id = []
        · rw [if_pos he]
          rw [he] at hlen
          simpa using hlen
        · rw [if_neg he]
          simp only [Option.getD_some]
          exact hlen
  · intro st r sub wf hs p hp q hq hqr
    rw [Unsubscribe_registry hs] at hp
    have hnd' := fold_unsub_keysNodup sub.id sub.topics wf.topicKeysNodup
    have hget := alGet_eq_of_mem_nodup hnd' hp
    rcases fold_unsub_get_origin hget hq with ⟨subs, hget₀, hq₀⟩
    rcases wf.entries _ (mem_of_alGet hget₀) q hq₀ with ⟨sub₀, hsub₀, hid, htop⟩
    rw [hqr, hs] at hsub₀
    have hss : sub₀ = sub := (Option.some.inj hsub₀).symm
    rw [hss] at hid htop
    have hspec := fold_unsub_get_mem sub.id htop st.registry
    rw [hget, hget₀, unsubSpec_some] at hspec
    by_cases he : alDel subs sub.id = []
    · rw [if_pos he] at hspec
      exact Option.noConfusion hspec
    · rw [if_neg he] at hspec
      have hp2 : p.2 = alDel subs sub.id := Option.some.inj hspec
      rw [hp2] at hq
      exact (mem_alDel hq).2 hid.symm
  · intro st r topic payload now hunref
    rw [Publish_store]
    refine busDeliver_get_notmem _ ?_ st.store
    intro q hq
    cases hg : alGet st.registry topic with
    | none => rw [hg] at hq; cases hq
    | some subs =>
        rw [hg] at hq
        simp only [Option.getD_some] at hq
        exact hunref _ (mem_of_alGet hg) q hq
  · intro st r id topics wf hlt hunref p hp q hq
    rw [Subscribe_registry] at hp
    have hnd' := subscribeReg_keysNodup id st.nextRef topics wf.topicKeysNodup
    have hget := alGet_eq_of_mem_nodup hnd' hp
    by_cases ht : p.1 ∈ topics
    · rw [subscribeReg_get_mem id st.nextRef ht] at hget
      have hp2 : p.2 = alSet ((alGet st.registry p.1).getD []) id st.nextRef :=
        (Option.some.inj hget).symm
      rw [hp2] at hq
      rcases List.mem_cons.mp hq with h₁ | h₁
      · rw [h₁]
        intro he
        simp only [] at he
        omega
      · have hq₀ : q ∈ (alGet st.registry p.1).getD [] := (mem_alDel h₁).1
        cases hg : alGet st.registry p.1 with
        | none => rw [hg] at hq₀; cases hq₀
        | some subs =>
            rw [hg] at hq₀
            exact hunref _ (mem_of_alGet hg) q hq₀
    · rw [subscribeReg_get_notmem id st.nextRef ht] at hget
      exact hunref _ (mem_of_alGet hget) q hq
  · intro st r r' wf hunref p hp q hq
    cases hs : st.store r' with
    | none =>
        rw [Unsubscribe_eq_of_none hs] at hp
        exact hunref p hp q hq
    | some sub =>
        rw [Unsubscribe_registry hs] at hp
        have hnd' := fold_unsub_keysNodup sub.id sub.topics wf.topicKeysNodup
        have hget := alGet_eq_of_mem_nodup hnd' hp
        rcases fold_unsub_get_origin hget hq with ⟨subs, hget₀, hq₀⟩
        exact hunref _ (mem_of_alGet hget₀) q hq₀

/-- Bus state with one subscriber, used for the C4 theorems. -/
def busD : PubSubState × Nat := Subscribe (NewPubSub 1) "s1" ["a"]

theorem wit_C4 :
    busD.1.store 0 =
      some { id := "s1", topics := ["a"], queue := [], cap := 1
             closes := 0, cancelled := false } ∧
    (Unsubscribe busD.1 0).store 0 =
      some { id := "s1", topics := ["a"], queue := [], cap := 1
             closes := 1, cancelled := true } := by
  refine ⟨by decide, ?_⟩
  exact claim_C4.1 busD.1 0
    { id := "s1", topics := ["a"], queue := [], cap := 1
      closes := 0, cancelled := false } (by decide) rfl

theorem cex_C4 :
    (Unsubscribe (Unsubscribe busD.1 busD.2) busD.2).store 0 =
      some { id := "s1", topics := ["a"], queue := [], cap := 1
             closes := 2, cancelled := true } := by
  decide

/-- C5: unregistering a live session removes it from the live set and
from every room, bumps the close count of its outbound queue by exactly
one, deletes every room emptied by the removal (and shrinks the others to
the remaining members), and a second Unregister of the same session is a
no-op on the whole state. -/
theorem claim_C5 :
    ∀ st c, HubWF st → c ∈ st.clients →
      (c ∉ (unregisterClient st c).clients) ∧
      (∀ room ms', alGet (unregisterClient st c).rooms room = some ms' →
        c ∉ ms') ∧
      (∀ o, st.store c = some o →
        (unregisterClient st c).store c = some { o with closes := o.closes + 1 }) ∧
      (∀ room ms, alGet st.rooms room = some ms →
        (setRemove ms c = [] →
          alGet (unregisterClient st c).rooms room = none) ∧
        (setRemove ms c ≠ [] →
          alGet (unregisterClient st c).rooms room = some (setRemove ms c))) ∧
      unregisterClient (unregisterClient st c) c = unregisterClient st c := by
  intro st c wf hc
  refine ⟨?_, ?_, ?_, ?_, ?_⟩
  · rw [unregisterClient_clients hc]
    intro hmem
    exact (mem_setRemove.mp hmem).2 rfl
  · intro room ms' hget
    rw [unregisterClient_rooms hc] at hget
    cases hg : alGet st.rooms room with
    | none =>
        rw [alGet_unregRooms_none wf.roomKeysNodup c hg] at hget
        cases hget
    | some ms =>
        rw [alGet_unregRooms_some wf.roomKeysNodup c hg] at hget
        by_cases hcm : c ∈ ms
        · rw [if_pos hcm] at hget
          by_cases he : setRemove ms c = []
          · rw [if_pos he] at hget
            cases hget
          · rw [if_neg he] at hget
            have hms : ms' = setRemove ms c := (Option.some.inj hget).symm
            rw [hms]
            intro hmem
            exact (mem_setRemove.mp hmem).2 rfl
        · rw [if_neg hcm] at hget
          have hms : ms' = ms := (Option.some.inj hget).symm
          rw [hms]
          exact hcm
  · intro o ho
    rw [unregisterClient_store hc, updObj_self, ho]
    rfl
  · intro room ms hg
    have hmem : (room, ms) ∈ st.rooms := mem_of_alGet hg
    rw [unregisterClient_rooms hc, alGet_unregRooms_some wf.roomKeysNodup c hg]
    by_cases hcm : c ∈ ms
    · constructor
      · intro he
        rw [if_pos hcm, if_pos he]
      · intro he
        rw [if_pos hcm, if_neg he]
    · have hrm : setRemove ms c = ms := setRemove_eq_self hcm
      constructor
      · intro he
        rw [hrm] at he
        exact absurd he (wf.membersNonempty _ hmem)
      · intro _
        rw [if_neg hcm, hrm]
  · have hout : c ∉ (unregisterClient st c).clients := by
      rw [unregisterClient_clients hc]
      intro hmem
      exact (mem_setRemove.mp hmem).2 rfl
    exact unregisterClient_eq_of_notmem hout

theorem wit_C5 :
    HubWF hubW ∧ 0 ∈ hubW.clients ∧
    (0 ∉ (unregisterClient hubW 0).clients ∧
      (∀ room ms', alGet (unregisterClient hubW 0).rooms room = some ms' →
        0 ∉ ms') ∧
      (∀ o, hubW.store 0 = some o →
        (unregisterClient hubW 0).store 0 = some { o with closes := o.closes + 1 }) ∧
      (∀ room ms, alGet hubW.rooms room = some ms →
        (setRemove ms 0 = [] →
          alGet (unregisterClient hubW 0).rooms room = none) ∧
        (setRemove ms 0 ≠ [] →
          alGet (unregisterClient hubW 0).rooms room = some (setRemove ms 0))) ∧
      unregisterClient (unregisterClient hubW 0) 0 = unregisterClient hubW 0) := by
  have hreach : HubReach hubW := by
    refine HubReach.join 0 "chat" (HubReach.register "u" HubReach.init) ?_
    decide
  have wf := hubWF_reachable hreach
  exact ⟨wf, by decide, claim_C5 hubW 0 wf (by decide)⟩

theorem broadcastToRoomMsg_room (room : String) (m : Message) :
    (broadcastToRoomMsg room m).room = room := rfl

theorem GetRoomClients_none {st : HubState} {room : String}
    (hg : alGet st.rooms room = none) : GetRoomClients st room = 0 := by
  simp [GetRoomClients, hg]

theorem GetRoomClients_some {st : HubState} {room : String}
    {ms : List ClientRef} (hg : alGet st.rooms room = some ms) :
    GetRoomClients st room = ms.length := by
  simp [GetRoomClients, hg]

/-- C6 (amended): for a nonempty room name R, `BroadcastToRoom R`
delivers the (room-stamped) message exactly to the current members of R —
each member receives it through the bounded try-send, every non-member's
object is untouched — and when R is absent from the registry the state is
unchanged (zero deliveries, no error).  For the empty room name the claim
fails (`cex_C6`): the message is broadcast to every live client instead,
because the empty room field selects the broadcast-to-all path. -/
theorem claim_C6 :
    (∀ st R m ms, HubWF st → R ≠ "" → alGet st.rooms R = some ms →
      (∀ c o, c ∈ ms → st.store c = some o →
        (BroadcastToRoom st R m).store c =
          some (trySend o (broadcastToRoomMsg R m))) ∧
      (∀ x, x ∉ ms → (BroadcastToRoom st R m).store x = st.store x)) ∧
    (∀ st R m, R ≠ "" → alGet st.rooms R = none →
      BroadcastToRoom st R m = st) ∧
    (∀ st R m, R = "" →
      (BroadcastToRoom st R m).store =
        hubDeliver st.store (broadcastToRoomMsg R m) st.clients) := by
  refine ⟨?_, ?_, ?_⟩
  · intro st R m ms wf hne hg
    have hne' : (broadcastToRoomMsg R m).room ≠ "" := by
      rw [broadcastToRoomMsg_room]
      exact hne
    have hg' : alGet st.rooms (broadcastToRoomMsg R m).room = some ms := by
      rw [broadcastToRoomMsg_room]
      exact hg
    constructor
    · intro c o hmem hs
      unfold BroadcastToRoom
      rw [broadcastMessage_store_room hne' hg']
      rw [hubDeliver_get_mem _ (wf.membersNodup _ (mem_of_alGet hg)) hmem]
      rw [hs]
      rfl
    · intro x hx
      unfold BroadcastToRoom
      rw [broadcastMessage_store_room hne' hg']
      exact hubDeliver_get_notmem _ hx st.store
  · intro st R m hne hg
    unfold BroadcastToRoom
    refine broadcastMessage_eq_of_none ?_ ?_
    · rw [broadcastToRoomMsg_room]
      exact hne
    · rw [broadcastToRoomMsg_room]
      exact hg
  · intro st R m hR
    unfold BroadcastToRoom
    exact broadcastMessage_store_all (by rw [broadcastToRoomMsg_room]; exact hR)

/-- Hub state with one registered client that is in no room. -/
def hubB : HubState := registerClient (NewClient NewHub "u").1 0

theorem cex_C6 :
    alGet hubB.rooms "" = none ∧
    hubB.store 0 =
      some { id := "0", userId := "u", send := [], sendCap := 256
             closes := 0, rooms := [] } ∧
    (BroadcastToRoom hubB "" { type_ := "t", room := "x", payload := "p" }).store 0 =
      some { id := "0", userId := "u"
             send := [{ type_ := "t", room := "", payload := "p" }]
             sendCap := 256, closes := 0, rooms := [] } := by
  refine ⟨rfl, by decide, by decide⟩

theorem wit_C6 :
    HubWF hubW ∧ ("chat" : String) ≠ "" ∧
    alGet hubW.rooms "chat" = some [0] ∧ (0 : ClientRef) ∈ [0] ∧
    hubW.store 0 =
      some { id := "0", userId := "u", send := [], sendCap := 256
             closes := 0, rooms := ["chat"] } ∧
    (BroadcastToRoom hubW "chat" { type_ := "t", room := "", payload := "p" }).store 0 =
      some (trySend
        { id := "0", userId := "u", send := [], sendCap := 256
          closes := 0, rooms := ["chat"] }
        (broadcastToRoomMsg "chat" { type_ := "t", room := "", payload := "p" })) := by
  have hreach : HubReach hubW := by
    refine HubReach.join 0 "chat" (HubReach.register "u" HubReach.init) ?_
    decide
  have wf := hubWF_reachable hreach
  refine ⟨wf, by decide, by decide, by decide, by decide, ?_⟩
  exact ((claim_C6.1 hubW "chat" { type_ := "t", room := "", payload := "p" } [0]
    wf (by decide) (by decide)).1 0
    { id := "0", userId := "u", send := [], sendCap := 256
      closes := 0, rooms := ["chat"] } (by decide) (by decide))

/-- C7 (amended): joining room R and then leaving it returns `RoomSize R`
to its pre-join value provided the session was not already a member of R
(the original unconditional claim fails when it was — `cex_C7`), and when
the room was empty or absent before the join, R is absent from the
registry after the leave. -/
theorem claim_C7 :
    ∀ st c R, c ∉ (alGet st.rooms R).getD [] →
      GetRoomClients (removeClientFromRoom (addClientToRoom st c R) c R) R =
        GetRoomClients st R ∧
      ((alGet st.rooms R).getD [] = [] →
        alGet (removeClientFromRoom (addClientToRoom st c R) c R).rooms R = none) := by
  intro st c R hnotin
  have hg₁ : alGet (addClientToRoom st c R).rooms R =
      some (setInsert ((alGet st.rooms R).getD []) c) := by
    rw [addClientToRoom_rooms]
    exact alGet_alSet_self _ _ _
  have hrm : setRemove (setInsert ((alGet st.rooms R).getD []) c) c =
      (alGet st.rooms R).getD [] := by
    rw [setRemove_setInsert]
    exact setRemove_eq_self hnotin
  have hrooms := removeClientFromRoom_rooms c hg₁
  rw [hrm] at hrooms
  by_cases hnil : (alGet st.rooms R).getD [] = []
  · rw [if_pos hnil] at hrooms
    have hnone : alGet (removeClientFromRoom (addClientToRoom st c R) c R).rooms R
        = none := by
      rw [hrooms]
      exact alGet_alDel_self _ R
    constructor
    · rw [GetRoomClients_none hnone]
      cases hg : alGet st.rooms R with
      | none => rw [GetRoomClients_none hg]
      | some ms =>
          rw [GetRoomClients_some hg]
          rw [hg] at hnil
          simp only [Option.getD_some] at hnil
          rw [hnil]
          rfl
    · intro _
      exact hnone
  · rw [if_neg hnil] at hrooms
    have hsome : alGet (removeClientFromRoom (addClientToRoom st c R) c R).rooms R
        = some ((alGet st.rooms R).getD []) := by
      rw [hrooms]
      exact alGet_alSet_self _ _ _
    constructor
    · rw [GetRoomClients_some hsome]
      cases hg : alGet st.rooms R with
      | none =>
          rw [hg] at hnil
          simp at hnil
      | some ms =>
          rw [GetRoomClients_some hg]
          rfl
    · intro h
      exact absurd h hnil

theorem wit_C7 :
    (1 : ClientRef) ∉ (alGet hubW.rooms "r2").getD [] ∧
    GetRoomClients (removeClientFromRoom (addClientToRoom hubW 1 "r2") 1 "r2") "r2" =
      GetRoomClients hubW "r2" ∧
    ((alGet hubW.rooms "r2").getD [] = [] →
      alGet (removeClientFromRoom (addClientToRoom hubW 1 "r2") 1 "r2").rooms "r2" =
        none) := by
  refine ⟨by decide, ?_, ?_⟩
  · exact (claim_C7 hubW 1 "r2" (by decide)).1
  · exact (claim_C7 hubW 1 "r2" (by decide)).2

theorem cex_C7 :
    GetRoomClients hubW "chat" = 1 ∧
    GetRoomClients (removeClientFromRoom (addClientToRoom hubW 0 "chat") 0 "chat")
      "chat" = 0 := by
  refine ⟨by decide, by decide⟩

theorem fanTrySend_closed (e : Event) (o : OutChan) :
    (fanTrySend e o).closed = o.closed := by
  unfold fanTrySend
  by_cases h : o.buf.length < o.cap
  · rw [if_pos h]
  · rw [if_neg h]

theorem fanDrain_closed (outs : List OutChan) (l : List Event) :
    (fanDrain outs l).map OutChan.closed = outs.map OutChan.closed := by
  induction l generalizing outs with
  | nil => rfl
  | cons e rest ih =>
      simp only [fanDrain]
      rw [ih]
      simp [List.map_map, Function.comp, fanTrySend_closed]

/-- C8 (amended): the Pipeline task closes both its success output and
its error channel when its input closes and when its cancellation scope
ends; the Fanout task closes its outputs when its cancellation scope
ends, but on a bare input close with the scope still active it exits
leaving every output exactly as open or closed as before (`cex_C8`
refutes the original claim that the input closing alone closes them). -/
theorem claim_C8 :
    (∀ st : FanoutState, st.ctxDone = true →
      ∀ o ∈ (fanRun st).outputs, o.closed = true) ∧
    (∀ st : FanoutState, st.ctxDone = false →
      (fanRun st).outputs.map OutChan.closed = st.outputs.map OutChan.closed) ∧
    (∀ st : PipelineState, st.ctxDone = true ∨ st.inputClosed = true →
      (pipeRun st).output.closed = true ∧ (pipeRun st).errors.closed = true) := by
  refine ⟨?_, ?_, ?_⟩
  · intro st hdone o ho
    unfold fanRun at ho
    rw [if_pos hdone] at ho
    simp only [List.mem_map] at ho
    rcases ho with ⟨o₀, _, rfl⟩
    rfl
  · intro st hdone
    unfold fanRun
    rw [if_neg (by rw [hdone]; exact Bool.false_ne_true)]
    exact fanDrain_closed st.outputs st.inputBuf
  · intro st hcase
    unfold pipeRun
    rcases hcase with hdone | hclosed
    · rw [if_pos hdone]
      exact ⟨rfl, rfl⟩
    · by_cases hdone : st.ctxDone = true
      · rw [if_pos hdone]
        exact ⟨rfl, rfl⟩
      · rw [if_neg hdone, if_pos hclosed]
        exact ⟨rfl, rfl⟩

/-- Fanout task state at a bare input close: scope still active, input
closed and drained, one open output. -/
def fanCex : FanoutState :=
  { inputBuf := [], inputClosed := true
    outputs := [{ buf := [], cap := 1, closed := false }], ctxDone := false }

theorem cex_C8 :
    fanCex.inputClosed = true ∧
    (fanRun fanCex).outputs.map OutChan.closed = [false] := by
  refine ⟨rfl, by decide⟩

/-- Pipeline task state with a closed input and no stages. -/
def pipeW : PipelineState :=
  { stages := [], inputBuf := [], inputClosed := true
    output := { buf := [], closed := false }
    errors := { buf := [], closed := false }, ctxDone := false }

theorem wit_C8 :
    (pipeW.ctxDone = true ∨ pipeW.inputClosed = true) ∧
    (pipeRun pipeW).output.closed = true ∧ (pipeRun pipeW).errors.closed = true := by
  refine ⟨Or.inr rfl, ?_⟩
  exact claim_C8.2.2 pipeW (Or.inr rfl)

/-- C9 (amended): Hub and Bus operations never modify a message's type or
payload, and the Bus's Publish builds a fresh Event from its arguments;
but `BroadcastToRoom` overwrites the room field of the caller's message
with its room argument before enqueueing it (`cex_C9` refutes the claim
that the fields of the message are unchanged). -/
theorem claim_C9 :
    (∀ room m, (broadcastToRoomMsg room m).type_ = m.type_ ∧
      (broadcastToRoomMsg room m).payload = m.payload ∧
      (broadcastToRoomMsg room m).room = room) ∧
    (∀ st room m, BroadcastToRoom st room m =
      broadcastMessage st (broadcastToRoomMsg room m)) ∧
    (∀ topic payload now,
      ({ topic := topic, payload := payload, timestamp := now } : Event).payload
        = payload) := by
  exact ⟨fun room m => ⟨rfl, rfl, rfl⟩, fun st room m => rfl,
    fun topic payload now => rfl⟩

theorem cex_C9 :
    (broadcastToRoomMsg "chat" { type_ := "t", room := "lobby", payload := "p" }).room
      ≠ "lobby" := by
  decide

/-- C10: when Subscribe reuses an id already registered under one of its
topics, the new subscriber replaces the old one there: the lookup for
that id now yields the new reference, no registry entry of that topic
references the old subscriber any more, the topic's subscriber count is
unchanged, and a later Unsubscribe of the old subscriber removes the
id's entry (the new subscriber's) from every topic the old one listed. -/
theorem claim_C10 :
    ∀ st old oldSub t topics, BusWF st → st.store old = some oldSub →
      alGet ((alGet st.registry t).getD []) oldSub.id = some old →
      t ∈ topics →
      (alGet ((alGet (Subscribe st oldSub.id topics).1.registry t).getD [])
          oldSub.id = some st.nextRef) ∧
      (∀ i, (i, old) ∉ (alGet (Subscribe st oldSub.id topics).1.registry t).getD []) ∧
      (GetSubscriberCount (Subscribe st oldSub.id topics).1 t =
        GetSubscriberCount st t) ∧
      (∀ t' ∈ oldSub.topics,
        alGet ((alGet (Unsubscribe (Subscribe st oldSub.id topics).1 old).registry
          t').getD []) oldSub.id = none) := by
  intro st old oldSub t topics wf hold hreg ht
  have hinner : ∃ subs, alGet st.registry t = some subs ∧
      alGet subs oldSub.id = some old := by
    cases hg : alGet st.registry t with
    | none =>
        rw [hg] at hreg
        simp [alGet] at hreg
    | some subs =>
        rw [hg] at hreg
        exact ⟨subs, rfl, hreg⟩
  obtain ⟨subs, hg, hid⟩ := hinner
  have holdlt : old < st.nextRef := ref_lt_nextRef wf hold
  have hget' : alGet (Subscribe st oldSub.id topics).1.registry t =
      some (alSet subs oldSub.id st.nextRef) := by
    rw [Subscribe_registry, subscribeReg_get_mem oldSub.id st.nextRef ht, hg]
    rfl
  refine ⟨?_, ?_, ?_, ?_⟩
  · rw [hget']
    simp only [Option.getD_some]
    exact alGet_alSet_self _ _ _
  · intro i hmem
    rw [hget'] at hmem
    simp only [Option.getD_some] at hmem
    rcases List.mem_cons.mp hmem with h₁ | h₁
    · have : old = st.nextRef := congrArg Prod.snd h₁
      omega
    · have hiold : i = oldSub.id := by
        rcases wf.entries _ (mem_of_alGet hg) (i, old) (mem_alDel h₁).1 with
          ⟨sub₀, hs₀, hid₀, _⟩
        rw [hold] at hs₀
        have hoo : oldSub = sub₀ := Option.some.inj hs₀
        rw [hoo]
        exact hid₀.symm
      exact (mem_alDel h₁).2 hiold
  · unfold GetSubscriberCount
    rw [hget', hg]
    simp only [Option.getD_some]
    have hnd := wf.innerKeysNodup _ (mem_of_alGet hg)
    have hlen : (alDel subs oldSub.id).length + 1 = subs.length :=
      length_alDel_of_get_nodup hnd hid
    unfold alSet
    simp only [List.length_cons]
    omega
  · intro t' ht'
    have hstore' : (Subscribe st oldSub.id topics).1.store old = some oldSub := by
      rw [Subscribe_store_ne st oldSub.id topics (Nat.ne_of_lt holdlt)]
      exact hold
    rw [Unsubscribe_registry hstore', fold_unsub_get_mem oldSub.id ht']
    cases hg₂ : alGet (Subscribe st oldSub.id topics).1.registry t' with
    | none => rfl
    | some subs₂ =>
        rw [unsubSpec_some]
        by_cases he : alDel subs₂ oldSub.id = []
        · rw [if_pos he]
          rfl
        · rw [if_neg he]
          simp only [Option.getD_some]
          rw [alGet_eq_none_iff]
          intro v
          exact not_mem_alDel_self subs₂ oldSub.id v

/-- Bus state with a subscriber "dup" on topic "a", later replaced. -/
def busR : PubSubState := (Subscribe (NewPubSub 2) "dup" ["a"]).1

/-- The first "dup" subscriber object in `busR`. -/
def oldDup : SubObj :=
  { id := "dup", topics := ["a"], queue := [], cap := 2
    closes := 0, cancelled := false }

theorem wit_C10 :
    BusWF busR ∧ busR.store 0 = some oldDup ∧
    alGet ((alGet busR.registry "a").getD []) oldDup.id = some 0 ∧
    "a" ∈ ["a", "b"] ∧
    (alGet ((alGet (Subscribe busR oldDup.id ["a", "b"]).1.registry "a").getD [])
      oldDup.id = some busR.nextRef) ∧
    (GetSubscriberCount (Subscribe busR oldDup.id ["a", "b"]).1 "a" =
      GetSubscriberCount busR "a") := by
  have hreach : BusReach busR :=
    BusReach.subscribe "dup" ["a"] (BusReach.init 2)
  have wf := busWF_reachable hreach
  have happ := claim_C10 busR 0 oldDup "a" ["a", "b"] wf (by decide) (by decide)
    (by decide)
  exact ⟨wf, by decide, by decide, by decide, happ.1, happ.2.2.1⟩

end Goiler
